import Mathlib

/-!
# Verification of the `jblinear` Vector specification

This file gives a shallow embedding of `src/vector.py` (class `Vector`) and
settles the frozen claims about it.

Modelling conventions:

* Python `Decimal` values are modelled exactly: a finite decimal is a pair of
  an integer coefficient and an integer exponent, and every context operation
  (`+`, `-`, `*`, `/`, `** 2`, `.sqrt()`) rounds its result to the default
  context precision of 28 significant digits with ROUND_HALF_EVEN, following
  the General Decimal Arithmetic specification as implemented by CPython.
* Python `int` is modelled as `ℤ` and Python `float` as `ℚ` with exact
  rational arithmetic (binary floating-point rounding and 64-bit machine
  integer overflow inside numpy are not modelled).  `math.sqrt` is modelled
  by `ratSqrt`, which is the exact square root whenever the argument is the
  square of a rational (every concrete input used below is) and otherwise a
  positive rational approximation; all general theorems depend only on the
  facts `ratSqrt 0 = 0` and `0 < ratSqrt q` for `0 < q`, which hold for
  `math.sqrt` as well.
* The float literal `1e-10` (`Vector.TOLERANCE`) is modelled as the rational
  `1/10^10`; no statement below is sensitive to the difference between that
  rational and the nearest binary64 value.
* Exceptions are modelled by the result type `PyRes`: `ValueError`,
  `TypeError`, `ZeroDivisionError` (which also stands for
  `decimal.DivisionByZero`, its subclass) and `AttributeError` are the only
  exception classes this code can raise.
-/

/- Batteries marks the `Rat` field operations `@[irreducible]`, which blocks
the default-transparency evaluation performed by `decide`; restoring the
default reducibility lets concrete vectors be evaluated by `decide`. -/
attribute [local semireducible] Rat.mul Rat.inv Rat.add Rat.sub Rat.ofScientific

set_option maxRecDepth 40000

namespace JBLinear

/-! ## Decimal digit counting -/

/-- Number of decimal digits of `n`, computed with explicit fuel so that the
kernel can evaluate it; `ndAux f n` is the digit count whenever `n < 10 ^ f`. -/
def ndAux : ℕ → ℕ → ℕ
  | 0, _ => 0
  | f + 1, n => if n < 10 then 1 else ndAux f (n / 10) + 1

/-- Number of decimal digits of a natural number (`nd 0 = 1`). -/
def nd (n : ℕ) : ℕ := ndAux (n + 1) n

theorem ndAux_le_iff {f n m : ℕ} (hf : n < 10 ^ f) (hm : 1 ≤ m) :
    (ndAux f n ≤ m ↔ n < 10 ^ m) := by
  induction f generalizing n m with
  | zero => simp at hf; subst hf; simp [ndAux]
  | succ f ih =>
    by_cases h10 : n < 10
    · simp only [ndAux, h10, if_true]
      have : n < 10 ^ m :=
        calc n < 10 ^ 1 := by simpa using h10
        _ ≤ 10 ^ m := Nat.pow_le_pow_right (by norm_num) hm
      simp [hm, this]
    · have hdiv : n / 10 < 10 ^ f := by
        rw [Nat.div_lt_iff_lt_mul (by norm_num)]
        calc n < 10 ^ (f + 1) := hf
        _ = 10 ^ f * 10 := by ring
      rcases Nat.lt_or_ge m 2 with hm2 | hm2
      · have hm1 : m = 1 := by omega
        subst hm1
        constructor
        · intro h
          simp only [ndAux, h10, if_false] at h
          have h1 : 1 ≤ ndAux f (n / 10) := by
            rcases f with _ | f
            · exfalso
              have : n / 10 = 0 := by omega
              omega
            · simp only [ndAux]
              split <;> omega
          omega
        · intro h; omega
      · have h1 : 1 ≤ m - 1 := by omega
        simp only [ndAux, h10, if_false]
        constructor
        · intro h
          have hle : ndAux f (n / 10) ≤ m - 1 := by omega
          have hlt : n / 10 < 10 ^ (m - 1) := (ih hdiv h1).mp hle
          have : n < 10 ^ (m - 1) * 10 := by
            rw [← Nat.div_lt_iff_lt_mul (by norm_num)]; exact hlt
          calc n < 10 ^ (m - 1) * 10 := this
          _ = 10 ^ (m - 1 + 1) := by ring
          _ = 10 ^ m := by congr 1; omega
        · intro h
          have hlt : n / 10 < 10 ^ (m - 1) := by
            rw [Nat.div_lt_iff_lt_mul (by norm_num)]
            calc n < 10 ^ m := h
            _ = 10 ^ (m - 1) * 10 := by
              rw [← pow_succ]; congr 1; omega
          have := (ih hdiv h1).mpr hlt
          omega

theorem nd_le_iff {n m : ℕ} (hm : 1 ≤ m) : (nd n ≤ m ↔ n < 10 ^ m) := by
  have hfuel : n < 10 ^ (n + 1) :=
    calc n < 10 ^ n := Nat.lt_pow_self (by norm_num) n
    _ ≤ 10 ^ (n + 1) := Nat.pow_le_pow_right (by norm_num) (Nat.le_succ n)
  exact ndAux_le_iff hfuel hm

theorem one_le_nd (n : ℕ) : 1 ≤ nd n := by
  simp only [nd, ndAux]
  split <;> omega

theorem nd_self_lt (n : ℕ) : n < 10 ^ nd n :=
  (nd_le_iff (one_le_nd n)).mp le_rfl

/-! ## Integer square root (kernel-friendly binary search) -/

/-- Binary search for the integer square root; invariant `lo ^ 2 ≤ n < hi ^ 2`. -/
def isqrtAux (n : ℕ) : ℕ → ℕ → ℕ → ℕ
  | 0, lo, _ => lo
  | f + 1, lo, hi =>
    if (lo + hi) / 2 ≤ lo then lo
    else if ((lo + hi) / 2) * ((lo + hi) / 2) ≤ n then isqrtAux n f ((lo + hi) / 2) hi
    else isqrtAux n f lo ((lo + hi) / 2)

/-- `isqrtAux` never returns less than its lower bound. -/
theorem le_isqrtAux (n : ℕ) : ∀ (f lo hi : ℕ), lo ≤ isqrtAux n f lo hi := by
  intro f
  induction f with
  | zero => intro lo hi; simp [isqrtAux]
  | succ f ih =>
    intro lo hi
    simp only [isqrtAux]
    split
    · exact le_rfl
    · split
      · calc lo ≤ (lo + hi) / 2 := by omega
        _ ≤ isqrtAux n f ((lo + hi) / 2) hi := ih _ _
      · exact ih _ _

/-- `isqrt n = ⌊√n⌋`; the fuel `5 * nd n + 16` exceeds `log₂ (n + 1)`. -/
def isqrt (n : ℕ) : ℕ := if n = 0 then 0 else isqrtAux n (5 * nd n + 16) 1 (n + 1)

theorem one_le_isqrt {n : ℕ} (h : 1 ≤ n) : 1 ≤ isqrt n := by
  have hn : n ≠ 0 := by omega
  simpa [isqrt, hn] using le_isqrtAux n (5 * nd n + 16) 1 (n + 1)

/-! ## Python `decimal.Decimal`

A finite decimal value: the signed coefficient `c` and the exponent `e`, with
numeric value `c * 10 ^ e`.  Context operations use the default context of
CPython's `decimal` module: precision 28, rounding ROUND_HALF_EVEN. -/

structure Dec where
  c : ℤ
  e : ℤ
deriving DecidableEq

/-- The default decimal context precision. -/
def PREC : ℕ := 28

/-- Round `a / 10 ^ k` to the nearest integer, ties to even (`k ≥ 1`). -/
def roundHalfEvenNat (a k : ℕ) : ℕ :=
  let d := 10 ^ k
  let q := a / d
  let r := a % d
  let h := 5 * 10 ^ (k - 1)
  if h < r then q + 1 else if r < h then q else if q % 2 = 0 then q else q + 1

/-- `Decimal._fix`: round a coefficient/exponent pair to the context precision
(28 significant digits, half-even), leaving it unchanged when it already fits. -/
def fixDec (c : ℤ) (e : ℤ) : Dec :=
  let a := c.natAbs
  if nd a ≤ PREC then ⟨c, e⟩
  else
    let k := nd a - PREC
    let q := roundHalfEvenNat a k
    let q2 := if 10 ^ PREC ≤ q then q / 10 else q
    let e2 := if 10 ^ PREC ≤ q then e + k + 1 else e + (k : ℤ)
    ⟨if c < 0 then -(q2 : ℤ) else (q2 : ℤ), e2⟩

/-- Numeric value of a decimal. -/
def Dec.val (x : Dec) : ℚ := (x.c : ℚ) * 10 ^ x.e

/-- `Decimal.__add__`: align exponents, add exactly, round to context. -/
def decAdd (x y : Dec) : Dec :=
  let e := min x.e y.e
  fixDec (x.c * 10 ^ (x.e - e).toNat + y.c * 10 ^ (y.e - e).toNat) e

/-- `Decimal.__sub__`: align exponents, subtract exactly, round to context. -/
def decSub (x y : Dec) : Dec :=
  let e := min x.e y.e
  fixDec (x.c * 10 ^ (x.e - e).toNat - y.c * 10 ^ (y.e - e).toNat) e

/-- `Decimal.__mul__`: multiply exactly, round to context. -/
def decMul (x y : Dec) : Dec := fixDec (x.c * y.c) (x.e + y.e)

/-- `Decimal.__pow__` with exponent `2`: square exactly, round to context. -/
def decPow2 (x : Dec) : Dec := fixDec (x.c * x.c) (2 * x.e)

/-- The trailing-zero stripping loop of `Decimal.__truediv__`'s exact case:
`while exp < ideal_exp and coeff % 10 == 0: coeff //= 10; exp += 1`. -/
def stripZeros : ℕ → ℕ → ℤ → ℕ × ℤ
  | 0, q, e => (q, e)
  | f + 1, q, e => if q % 10 = 0 then stripZeros f (q / 10) (e + 1) else (q, e)

/-- `Decimal.__truediv__` (`none` = division by zero): long division producing
`prec + 1` digits with a correction of the last digit, exact results brought
toward the ideal exponent `e₁ - e₂`, then context rounding. -/
def decDiv (x y : Dec) : Option Dec :=
  if y.c = 0 then none
  else if x.c = 0 then some (fixDec 0 (x.e - y.e))
  else
    let a := x.c.natAbs
    let b := y.c.natAbs
    let shift : ℤ := (nd b : ℤ) - (nd a : ℤ) + PREC + 1
    let exp := x.e - y.e - shift
    let q :=
      if 0 ≤ shift then (a * 10 ^ shift.toNat) / b else a / (b * 10 ^ (-shift).toNat)
    let r :=
      if 0 ≤ shift then (a * 10 ^ shift.toNat) % b else a % (b * 10 ^ (-shift).toNat)
    let qe : ℕ × ℤ :=
      if r = 0 then
        let ideal := x.e - y.e
        stripZeros (ideal - exp).toNat q exp
      else
        (if q % 5 = 0 then q + 1 else q, exp)
    let sgn : ℤ := if (x.c < 0) ≠ (y.c < 0) then -1 else 1
    some (fixDec (sgn * qe.1) qe.2)

/-- `Decimal.sqrt()`: correctly rounded square root at context precision;
exact roots are detected and reported at the ideal exponent.  Only called on
sums of squares, so the negative-coefficient case (which raises
`InvalidOperation` in Python) is left out. -/
def decSqrt (x : Dec) : Dec :=
  if x.c = 0 then ⟨0, (x.e - x.e % 2) / 2⟩
  else
    let c0 := x.c.natAbs
    let eOdd : Bool := x.e % 2 ≠ 0
    let e2 := (x.e - (if eOdd then 1 else 0)) / 2
    let c := if eOdd then c0 * 10 else c0
    let l := if eOdd then nd c0 / 2 + 1 else (nd c0 + 1) / 2
    let shift : ℤ := (PREC + 1 : ℤ) - l
    let c3 := if 0 ≤ shift then c * 100 ^ shift.toNat else c / 100 ^ (-shift).toNat
    let exact0 : Bool := if 0 ≤ shift then true else c % 100 ^ (-shift).toNat = 0
    let e3 := e2 - shift
    let n := isqrt c3
    if exact0 ∧ n * n = c3 then
      let n2 := if 0 ≤ shift then n / 10 ^ shift.toNat else n * 10 ^ (-shift).toNat
      fixDec (n2 : ℤ) e2
    else
      let n2 := if n % 5 = 0 then n + 1 else n
      fixDec (n2 : ℤ) e3

/-! ## Python exceptions and results

`zeroDiv` models `ZeroDivisionError` and its subclass `decimal.DivisionByZero`;
`attrErr` models the `AttributeError` raised when `.sqrt()` is called on the
non-`Decimal` sum produced by an empty coordinate array. -/

inductive PyErr where
  | valueErr (msg : String)
  | typeErr (msg : String)
  | zeroDiv
  | attrErr
deriving DecidableEq

/-- Result of running a piece of Python code: a value or a raised exception. -/
inductive PyRes (α : Type) where
  | ok (a : α)
  | raise (e : PyErr)
deriving DecidableEq

instance : Monad PyRes where
  pure := .ok
  bind x f := match x with | .ok a => f a | .raise e => .raise e

@[simp] theorem PyRes.bind_ok {α β : Type} (a : α) (f : α → PyRes β) :
    (PyRes.ok a >>= f) = f a := rfl

@[simp] theorem PyRes.bind_raise {α β : Type} (e : PyErr) (f : α → PyRes β) :
    (PyRes.raise e >>= f) = PyRes.raise e := rfl

@[simp] theorem PyRes.pure_eq {α : Type} (a : α) : (pure a : PyRes α) = PyRes.ok a := rfl

/-- The common text of `TypeError`s from unsupported operand combinations
(mixing `Decimal` with `float`); no claim inspects this message. -/
def unsupportedMsg : String := "unsupported operand type(s)"

/-- A Python number as this module uses them: `int` (exact), `float`
(idealised as an exact rational) or `decimal.Decimal`. -/
inductive PyNum where
  | int (z : ℤ)
  | float (q : ℚ)
  | dec (d : Dec)
deriving DecidableEq

/-- Numeric value of a Python number. -/
def PyNum.val : PyNum → ℚ
  | .int z => z
  | .float q => q
  | .dec d => d.val

/-- Python `+` on numbers: `int`/`float` mix freely (exactly, in this model),
`Decimal` combines with `int` via exact conversion and context rounding, and
`Decimal` with `float` raises `TypeError`. -/
def pyAdd : PyNum → PyNum → PyRes PyNum
  | .int a, .int b => .ok (.int (a + b))
  | .int a, .float b => .ok (.float (a + b))
  | .float a, .int b => .ok (.float (a + b))
  | .float a, .float b => .ok (.float (a + b))
  | .dec a, .dec b => .ok (.dec (decAdd a b))
  | .dec a, .int b => .ok (.dec (decAdd a ⟨b, 0⟩))
  | .int a, .dec b => .ok (.dec (decAdd ⟨a, 0⟩ b))
  | .dec _, .float _ => .raise (.typeErr unsupportedMsg)
  | .float _, .dec _ => .raise (.typeErr unsupportedMsg)

/-- Python `-` on numbers (same coercion rules as `pyAdd`). -/
def pySub : PyNum → PyNum → PyRes PyNum
  | .int a, .int b => .ok (.int (a - b))
  | .int a, .float b => .ok (.float (a - b))
  | .float a, .int b => .ok (.float (a - b))
  | .float a, .float b => .ok (.float (a - b))
  | .dec a, .dec b => .ok (.dec (decSub a b))
  | .dec a, .int b => .ok (.dec (decSub a ⟨b, 0⟩))
  | .int a, .dec b => .ok (.dec (decSub ⟨a, 0⟩ b))
  | .dec _, .float _ => .raise (.typeErr unsupportedMsg)
  | .float _, .dec _ => .raise (.typeErr unsupportedMsg)

/-- Python `*` on numbers (same coercion rules as `pyAdd`). -/
def pyMul : PyNum → PyNum → PyRes PyNum
  | .int a, .int b => .ok (.int (a * b))
  | .int a, .float b => .ok (.float (a * b))
  | .float a, .int b => .ok (.float (a * b))
  | .float a, .float b => .ok (.float (a * b))
  | .dec a, .dec b => .ok (.dec (decMul a b))
  | .dec a, .int b => .ok (.dec (decMul a ⟨b, 0⟩))
  | .int a, .dec b => .ok (.dec (decMul ⟨a, 0⟩ b))
  | .dec _, .float _ => .raise (.typeErr unsupportedMsg)
  | .float _, .dec _ => .raise (.typeErr unsupportedMsg)

/-- Python `/` (true division): `int / int` gives `float`; dividing by an
exact zero raises `ZeroDivisionError` (or `decimal.DivisionByZero`). -/
def pyDiv : PyNum → PyNum → PyRes PyNum
  | .int a, .int b => if b = 0 then .raise .zeroDiv else .ok (.float ((a : ℚ) / b))
  | .int a, .float b => if b = 0 then .raise .zeroDiv else .ok (.float (a / b))
  | .float a, .int b => if b = 0 then .raise .zeroDiv else .ok (.float (a / b))
  | .float a, .float b => if b = 0 then .raise .zeroDiv else .ok (.float (a / b))
  | .dec a, .dec b =>
    match decDiv a b with | some d => .ok (.dec d) | none => .raise .zeroDiv
  | .dec a, .int b =>
    match decDiv a ⟨b, 0⟩ with | some d => .ok (.dec d) | none => .raise .zeroDiv
  | .int a, .dec b =>
    match decDiv ⟨a, 0⟩ b with | some d => .ok (.dec d) | none => .raise .zeroDiv
  | .dec _, .float _ => .raise (.typeErr unsupportedMsg)
  | .float _, .dec _ => .raise (.typeErr unsupportedMsg)

/-- Python `x ** 2` as used elementwise by `magnitude`. -/
def pySq : PyNum → PyNum
  | .int z => .int (z * z)
  | .float q => .float (q * q)
  | .dec d => .dec (decPow2 d)

/-- Python `abs`. -/
def pyAbs : PyNum → PyNum
  | .int z => .int |z|
  | .float q => .float |q|
  | .dec d => .dec ⟨|d.c|, d.e⟩

/-- The rational model of `math.sqrt` on nonnegative input: exact whenever the
argument is the square of a rational (if `q = (a/b)²` in lowest terms then
`a² * b²` is a perfect square), otherwise `⌊√(num·den)⌋ / den`, which is
positive for positive `q`.  General theorems below use only `ratSqrt 0 = 0`
and positivity, which the real `math.sqrt` also satisfies. -/
def ratSqrt (q : ℚ) : ℚ := (isqrt (q.num.toNat * q.den) : ℚ) / (q.den : ℚ)

@[simp] theorem ratSqrt_zero : ratSqrt 0 = 0 := by
  have : isqrt 0 = 0 := rfl
  simp [ratSqrt, this]

theorem ratSqrt_pos {q : ℚ} (h : 0 < q) : 0 < ratSqrt q := by
  have hnum : 0 < q.num := Rat.num_pos.mpr h
  have h1 : 1 ≤ q.num.toNat * q.den := by
    have : 1 ≤ q.num.toNat := by omega
    have hd : 1 ≤ q.den := q.pos
    exact Nat.one_le_iff_ne_zero.mpr (by positivity)
  have := one_le_isqrt h1
  have hden : (0 : ℚ) < (q.den : ℚ) := by exact_mod_cast q.pos
  apply div_pos _ hden
  exact_mod_cast this

/-- `math.sqrt(x)`: negative arguments raise `ValueError("math domain error")`;
the result is a `float`. -/
def mathSqrt (x : PyNum) : PyRes PyNum :=
  if x.val < 0 then .raise (.valueErr "math domain error")
  else .ok (.float (ratSqrt x.val))

/-! ## The `Vector` class of `src/vector.py` -/

/-- The numeric-mode tag passed as the `type` argument of the constructor:
`Decimal`, `float`, or absent (`None`). -/
inductive PyTy where
  | dec
  | float
deriving DecidableEq

/-- Exact conversion of an idealised float to a decimal, as `Decimal(float)`
performs it.  Real binary floats are dyadic, hence always convert after at
most 1075 shifts; rationals outside that range do not correspond to floats. -/
def decOfRatAux : ℕ → ℚ → ℕ → Option Dec
  | 0, _, _ => none
  | f + 1, q, k =>
    if (q * 10 ^ k).den = 1 then some ⟨(q * 10 ^ k).num, -(k : ℤ)⟩
    else decOfRatAux f q (k + 1)

def decOfRat (q : ℚ) : Option Dec := decOfRatAux 2000 q 0

/-- Coordinate coercion performed by `Vector.__init__` when `type` is given:
`[type(x) for x in coordinates]`. -/
def coerceCoord : PyTy → PyNum → PyRes PyNum
  | .dec, .int z => .ok (.dec ⟨z, 0⟩)
  | .dec, .dec d => .ok (.dec d)
  | .dec, .float q =>
    match decOfRat q with
    | some d => .ok (.dec d)
    | none => .raise (.valueErr "unrepresentable float")
  | .float, n => .ok (.float n.val)

structure Vector where
  coordinates : List PyNum
  type : Option PyTy
deriving DecidableEq

/-- Effectful map over a coordinate list, first failure wins (numpy's object
loops work through the elements in order). -/
def mapPy (f : PyNum → PyRes PyNum) : List PyNum → PyRes (List PyNum)
  | [] => .ok []
  | a :: as => do
    let b ← f a
    let bs ← mapPy f as
    .ok (b :: bs)

/-- `Vector.__init__`. -/
def Vector.make (cs : List PyNum) : Option PyTy → PyRes Vector
  | none => .ok ⟨cs, none⟩
  | some t => do
    let cs2 ← mapPy (coerceCoord t) cs
    .ok ⟨cs2, some t⟩

/-- `Vector.dimension`. -/
def Vector.dimension (v : Vector) : ℕ := v.coordinates.length

/-- `Vector._mix_types`: `((v._type is w._type) and v._type) or None`. -/
def Vector.mix_types (v w : Vector) : Option PyTy :=
  if v.type = w.type then v.type else none

/-- Elementwise combination of two equal-length coordinate arrays, first
failing element first, as numpy's object loops do. -/
def zipWithPy (f : PyNum → PyNum → PyRes PyNum) : List PyNum → List PyNum → PyRes (List PyNum)
  | [], _ => .ok []
  | _ :: _, [] => .ok []
  | a :: as, b :: bs => do
    let c ← f a b
    let cs ← zipWithPy f as bs
    .ok (c :: cs)

/-- `ndarray.sum()`: sequential reduction; the additive identity is only used
for an empty array (where numpy yields a zero scalar). -/
def foldPy : PyNum → List PyNum → PyRes PyNum
  | acc, [] => .ok acc
  | acc, c :: cs => do
    let acc2 ← pyAdd acc c
    foldPy acc2 cs

def sumPy : List PyNum → PyRes PyNum
  | [] => .ok (.int 0)
  | c :: cs => foldPy c cs

/-- `Vector.__add__`. -/
def Vector.add (v w : Vector) : PyRes Vector :=
  if v.dimension ≠ w.dimension then
    .raise (.valueErr "addition undefined on vectors of different dimensions")
  else do
    let cs ← zipWithPy pyAdd v.coordinates w.coordinates
    Vector.make cs (v.mix_types w)

/-- `Vector.__sub__`. -/
def Vector.sub (v w : Vector) : PyRes Vector :=
  if v.dimension ≠ w.dimension then
    .raise (.valueErr "subtraction undefined on vectors of different dimensions")
  else do
    let cs ← zipWithPy pySub v.coordinates w.coordinates
    Vector.make cs (v.mix_types w)

/-- The scalar preparation of `Vector.__mul__`: for a `Decimal`-mode vector
the scalar is converted by `Decimal(n)` (exact); otherwise `float(n)` merely
validates the scalar without rebinding it. -/
def convertScalar (v : Vector) (n : PyNum) : PyRes PyNum :=
  if v.type = some PyTy.dec then
    match n with
    | .int z => .ok (PyNum.dec ⟨z, 0⟩)
    | .dec d => .ok (PyNum.dec d)
    | .float q =>
      match decOfRat q with
      | some d => .ok (PyNum.dec d)
      | none => .raise (.typeErr unsupportedMsg)
  else .ok n

/-- `Vector.__mul__` (and `__rmul__`): scalar multiplication. -/
def Vector.mul (v : Vector) (n : PyNum) : PyRes Vector := do
  let n2 ← convertScalar v n
  let cs ← mapPy (fun c => pyMul c n2) v.coordinates
  Vector.make cs v.type

/-- `Vector.magnitude`: `(v._array ** 2).sum().sqrt()` in `Decimal` mode,
`math.sqrt((v._array ** 2).sum())` otherwise.  On an empty `Decimal`-mode
vector the sum is not a `Decimal` and `.sqrt()` raises `AttributeError`. -/
def Vector.magnitude (v : Vector) : PyRes PyNum := do
  let s ← sumPy (v.coordinates.map pySq)
  if v.type = some PyTy.dec then
    match s with
    | .dec d => .ok (.dec (decSqrt d))
    | _ => .raise .attrErr
  else mathSqrt s

def NORM_ZERO_ERR_MSG : String := "cannot normalize the zero vector"

/-- `Vector.normalized`: `v * (1 / v.magnitude)`, with `ZeroDivisionError`
(and its decimal subclass) translated to `ValueError(NORM_ZERO_ERR_MSG)`. -/
def Vector.normalized (v : Vector) : PyRes Vector :=
  match (do
    let m ← v.magnitude
    let n ← pyDiv (.int 1) m
    v.mul n : PyRes Vector) with
  | .raise .zeroDiv => .raise (.valueErr NORM_ZERO_ERR_MSG)
  | r => r

/-- `v._array * w._array` with numpy's shape rules: equal lengths combine
elementwise, a length-1 operand broadcasts, anything else is a `ValueError`. -/
def broadcastMul : List PyNum → List PyNum → PyRes (List PyNum)
  | as, bs =>
    if as.length = bs.length then zipWithPy pyMul as bs
    else
      match as, bs with
      | [a], bs => mapPy (fun b => pyMul a b) bs
      | as, [b] => mapPy (fun a => pyMul a b) as
      | _, _ => .raise (.valueErr "operands could not be broadcast together")

/-- `Vector.inner`: `(v._array * w._array).sum()`, re-raising a `ValueError`
as a dimension-mismatch error when the dimensions differ. -/
def Vector.inner (v w : Vector) : PyRes PyNum :=
  match (do
    let ps ← broadcastMul v.coordinates w.coordinates
    sumPy ps : PyRes PyNum) with
  | .raise (.valueErr msg) =>
    if v.dimension ≠ w.dimension then
      .raise (.valueErr "inner product undefined on vectors of different dimensions")
    else .raise (.valueErr msg)
  | r => r

/-- `Vector.cross`: the 3-dimensional determinant formula; the result is
constructed without a `type` tag. -/
def Vector.cross (v w : Vector) : PyRes Vector :=
  if ¬(v.dimension = 3 ∧ w.dimension = 3) then
    .raise (.valueErr "cross product only defined for 3-dimensional vectors")
  else do
    let vx := v.coordinates.getD 0 (.int 0)
    let vy := v.coordinates.getD 1 (.int 0)
    let vz := v.coordinates.getD 2 (.int 0)
    let wx := w.coordinates.getD 0 (.int 0)
    let wy := w.coordinates.getD 1 (.int 0)
    let wz := w.coordinates.getD 2 (.int 0)
    let a1 ← pyMul vy wz
    let a2 ← pyMul wy vz
    let c1 ← pySub a1 a2
    let b1 ← pyMul wx vz
    let b2 ← pyMul vx wz
    let c2 ← pySub b1 b2
    let d1 ← pyMul vx wy
    let d2 ← pyMul wx vy
    let c3 ← pySub d1 d2
    .ok ⟨[c1, c2, c3], none⟩

/-- Placeholder for the numeric value of `math.acos`; no claim concerns the
returned angle, only the domain error behaviour of `acos` matters. -/
def acosApprox (q : ℚ) : ℚ := q

/-- `math.acos(x)`: raises `ValueError("math domain error")` outside `[-1, 1]`. -/
def mathAcos (x : PyNum) : PyRes PyNum :=
  if x.val < -1 ∨ 1 < x.val then .raise (.valueErr "math domain error")
  else .ok (.float (acosApprox x.val))

/-- `Vector.angle`: `math.acos(v.inner(w) * (1 / (v.magnitude * w.magnitude)))`
with the `except ValueError` rewriting of the source. -/
def Vector.angle (v w : Vector) : PyRes PyNum :=
  match (do
    let i ← v.inner w
    let mv ← v.magnitude
    let mw ← w.magnitude
    let p ← pyMul mv mw
    let r ← pyDiv (.int 1) p
    let x ← pyMul i r
    mathAcos x : PyRes PyNum) with
  | .raise (.valueErr msg) =>
    if msg = NORM_ZERO_ERR_MSG then
      .raise (.valueErr "angle with the zero vector undefined")
    else if v.dimension ≠ w.dimension then
      .raise (.valueErr "angle undefined on vectors of different dimensions")
    else .raise (.valueErr msg)
  | r => r

/-- `Vector.projected`: `basis * (v.inner(basis) / (basis.magnitude ** 2))`. -/
def Vector.projected (v basis : Vector) : PyRes Vector := do
  let i ← v.inner basis
  let m ← basis.magnitude
  let q ← pyDiv i (pySq m)
  basis.mul q

/-- The float literal `1e-10`, modelled as the rational `10⁻¹⁰`. -/
def TOLERANCE : ℚ := 1 / 10 ^ 10

/-- `Vector.is_zero`: `v.magnitude < v.TOLERANCE` (a value comparison; Python
compares `Decimal` with `float` numerically). -/
def Vector.is_zero (v : Vector) : PyRes Bool := do
  let m ← v.magnitude
  .ok (decide (m.val < TOLERANCE))

/-- `Vector.is_orthogonal`: `abs(v.inner(w)) < v.TOLERANCE`. -/
def Vector.is_orthogonal (v w : Vector) : PyRes Bool := do
  let i ← v.inner w
  .ok (decide ((pyAbs i).val < TOLERANCE))

/-- `Vector.__eq__`: `(v - w).is_zero()`. -/
def Vector.eq (v w : Vector) : PyRes Bool := do
  let d ← v.sub w
  d.is_zero

/-- `Vector.is_parallel`: the short-circuiting `or` chain of the source;
`normalized` is cached, so its second use cannot re-raise. -/
def Vector.is_parallel (v w : Vector) : PyRes Bool := do
  let bv ← v.is_zero
  if bv then .ok true else do
  let bw ← w.is_zero
  if bw then .ok true else do
  let nv ← v.normalized
  let nw ← w.normalized
  let e1 ← nv.eq nw
  if e1 then .ok true else do
  let nn ← nv.mul (.int (-1))
  nn.eq nw

/-! ## Basic value lemmas -/

theorem Dec.val_eq_zero_iff (d : Dec) : d.val = 0 ↔ d.c = 0 := by
  unfold Dec.val
  constructor
  · intro h
    rcases mul_eq_zero.mp h with h | h
    · exact_mod_cast h
    · exact absurd h (zpow_ne_zero _ (by norm_num))
  · intro h; simp [h]

theorem pyAbs_val (x : PyNum) : (pyAbs x).val = |x.val| := by
  cases x with
  | int z => simp [pyAbs, PyNum.val]
  | float q => simp [pyAbs, PyNum.val]
  | dec d =>
    simp only [pyAbs, PyNum.val, Dec.val, abs_mul]
    congr 1
    · push_cast; rfl
    · symm
      apply abs_of_pos
      positivity

theorem pyDiv_one_raise {m : PyNum} (h : m.val = 0) :
    pyDiv (.int 1) m = .raise .zeroDiv := by
  cases m with
  | int z =>
    simp only [PyNum.val] at h
    have : z = 0 := by exact_mod_cast h
    simp [pyDiv, this]
  | float q => simp_all [pyDiv, PyNum.val]
  | dec d =>
    have hc : d.c = 0 := (Dec.val_eq_zero_iff d).mp h
    simp [pyDiv, decDiv, hc]

theorem pyDiv_one_ok {m : PyNum} (h : m.val ≠ 0) :
    ∃ n, pyDiv (.int 1) m = .ok n := by
  cases m with
  | int z =>
    have hz : z ≠ 0 := by simpa [PyNum.val] using h
    simp only [pyDiv, if_neg hz]
    exact ⟨_, rfl⟩
  | float q =>
    have hq : q ≠ 0 := by simpa [PyNum.val] using h
    simp only [pyDiv, if_neg hq]
    exact ⟨_, rfl⟩
  | dec d =>
    have hc : d.c ≠ 0 := fun hc => h ((Dec.val_eq_zero_iff d).mpr hc)
    have h1 : (1 : ℤ) ≠ 0 := one_ne_zero
    simp only [pyDiv, decDiv, if_neg hc, if_neg h1]
    exact ⟨_, rfl⟩

/-! ## Claim C1 -/

/-- Claim C1 (refuted; the code is the buggy side): taking the angle of the
zero vector with a same-dimension vector does not fail with the distinguishable
zero-vector error the spec requires — the `1 / (v.magnitude * w.magnitude)`
division raises an uncaught `ZeroDivisionError` (the `except ValueError` branch
matching `NORM_ZERO_ERR_MSG` is dead code, since no `ValueError` with that
message can arise inside `angle`). -/
theorem angle_zero_vector_uncaught_zero_division :
    Vector.angle ⟨[.int 0, .int 0], none⟩ ⟨[.int 1, .int 0], none⟩
      = .raise .zeroDiv := by decide

/-! ## Claim C2 -/

/-- Claim C2 (refuted; the code is the buggy side): `inner` on vectors of
differing dimensions 3 and 1 does not fail — numpy broadcasts the length-1
array, so the product array is well-defined and `inner` returns `30` for
`[1,2,3] · [5]` instead of raising the dimension-mismatch `ValueError`. -/
theorem inner_broadcast_returns_value :
    Vector.inner ⟨[.int 1, .int 2, .int 3], none⟩ ⟨[.int 5], none⟩
      = .ok (.int 30) := by decide

/-! ## Claim C3 -/

/-- Claim C3, counterexample: two exact-decimal vectors with inner product
`Decimal('1E-11')`, which is not exact zero, are nevertheless reported
orthogonal, because `is_orthogonal` compares `abs(inner)` against the float
tolerance `1e-10` in exact mode too. -/
theorem is_orthogonal_exact_mode_cex :
    Vector.is_orthogonal ⟨[.dec ⟨1, -11⟩], some .dec⟩ ⟨[.dec ⟨1, 0⟩], some .dec⟩ = .ok true
    ∧ Vector.inner ⟨[.dec ⟨1, -11⟩], some .dec⟩ ⟨[.dec ⟨1, 0⟩], some .dec⟩ = .ok (.dec ⟨1, -11⟩)
    ∧ (Dec.val ⟨1, -11⟩ ≠ 0) := by
  refine ⟨by decide, by decide, ?_⟩
  rw [Ne, Dec.val_eq_zero_iff]
  decide

/-- Claim C3 as amended: in **both** numeric modes `is_orthogonal(v, w)`
returns true iff `|inner(v, w)| < 1e-10`; the exact-decimal mode is not
special-cased to exact zero. -/
theorem is_orthogonal_tolerance (v w : Vector) (i : PyNum)
    (h : Vector.inner v w = .ok i) :
    Vector.is_orthogonal v w = .ok (decide (|i.val| < TOLERANCE)) := by
  simp only [Vector.is_orthogonal, h, PyRes.bind_ok, pyAbs_val]

/-- Witness for `is_orthogonal_tolerance` at a concrete input. -/
theorem is_orthogonal_tolerance_witness :
    Vector.is_orthogonal ⟨[.float 1, .float 0], none⟩ ⟨[.float 0, .float 3], none⟩
      = .ok (decide (|(PyNum.float 0).val| < TOLERANCE)) :=
  is_orthogonal_tolerance ⟨[.float 1, .float 0], none⟩ ⟨[.float 0, .float 3], none⟩
    (.float 0) (by decide)

/-! ## Claim C5 -/

/-- Claim C5: in exact-decimal mode, projecting `Vector(['1.0','0.0'])` onto
`Vector(['0.5','0.5'])` (coordinates `Decimal('1.0') = 10·10⁻¹` etc.) yields
coordinates that are bit-exactly `Decimal('0.5') = 5·10⁻¹`, through
`basis * (inner(v,basis) / magnitude(basis)**2)` with context-precision-28
decimal arithmetic throughout. -/
theorem projected_exact_decimal_scenario :
    Vector.projected ⟨[.dec ⟨10, -1⟩, .dec ⟨0, -1⟩], some .dec⟩
        ⟨[.dec ⟨5, -1⟩, .dec ⟨5, -1⟩], some .dec⟩
      = .ok ⟨[.dec ⟨5, -1⟩, .dec ⟨5, -1⟩], some .dec⟩ := by decide

/-! ## Claim C10 -/

/-- Claim C10: comparing vectors of differing dimensions with `==` does not
return `False`; the underlying subtraction raises the dimension-mismatch
`ValueError` instead. -/
theorem eq_dim_mismatch_raises (v w : Vector) (h : v.dimension ≠ w.dimension) :
    Vector.eq v w
      = .raise (.valueErr "subtraction undefined on vectors of different dimensions") := by
  unfold Vector.eq Vector.sub
  rw [if_pos h]
  rfl

/-- Witness for `eq_dim_mismatch_raises` at dimensions 2 and 1. -/
theorem eq_dim_mismatch_raises_witness :
    Vector.eq ⟨[.int 1, .int 2], none⟩ ⟨[.int 1], none⟩
      = .raise (.valueErr "subtraction undefined on vectors of different dimensions") :=
  eq_dim_mismatch_raises ⟨[.int 1, .int 2], none⟩ ⟨[.int 1], none⟩ (by decide)

/-! ## Exception-flow helper lemmas -/

theorem bind_ne_raise {α β : Type} {x : PyRes α} {f : α → PyRes β} {e : PyErr}
    (hx : x ≠ .raise e) (hf : ∀ a, f a ≠ .raise e) : (x >>= f) ≠ .raise e := by
  cases x with
  | ok a => simpa using hf a
  | raise e2 =>
    simp only [PyRes.bind_raise]
    intro hc
    injection hc with hc
    exact hx (by rw [hc])

theorem coerceCoord_ne_zeroDiv (t : PyTy) (a : PyNum) :
    coerceCoord t a ≠ .raise .zeroDiv := by
  cases t with
  | dec =>
    cases a with
    | int z => simp [coerceCoord]
    | dec d => simp [coerceCoord]
    | float q => rcases h : decOfRat q with _ | d <;> simp [coerceCoord, h]
  | float => cases a <;> simp [coerceCoord]

theorem mapPy_ne_raise {f : PyNum → PyRes PyNum} {e : PyErr}
    (hf : ∀ a, f a ≠ .raise e) : ∀ cs, mapPy f cs ≠ .raise e := by
  intro cs
  induction cs with
  | nil => simp [mapPy]
  | cons a as ih =>
    simp only [mapPy]
    exact bind_ne_raise (hf a) fun b => bind_ne_raise ih fun bs => by simp

theorem make_ne_zeroDiv (cs : List PyNum) (ty : Option PyTy) :
    Vector.make cs ty ≠ .raise .zeroDiv := by
  cases ty with
  | none => simp [Vector.make]
  | some t =>
    simp only [Vector.make]
    exact bind_ne_raise (mapPy_ne_raise (coerceCoord_ne_zeroDiv t) cs) fun _ => by simp

theorem pyMul_ne_zeroDiv (a b : PyNum) : pyMul a b ≠ .raise .zeroDiv := by
  cases a <;> cases b <;> simp [pyMul]

/-- Scalar multiplication never raises `ZeroDivisionError`, so the
`try/except` of `normalized` only converts the error of `1 / magnitude`. -/
theorem convertScalar_ne_zeroDiv (v : Vector) (n : PyNum) :
    convertScalar v n ≠ .raise .zeroDiv := by
  unfold convertScalar
  split
  · cases n with
    | int z => simp
    | dec d => simp
    | float q => rcases h : decOfRat q with _ | d <;> simp [h]
  · simp

theorem mul_ne_zeroDiv (v : Vector) (n : PyNum) : v.mul n ≠ .raise .zeroDiv := by
  unfold Vector.mul
  exact bind_ne_raise (convertScalar_ne_zeroDiv v n) fun n2 =>
    bind_ne_raise (mapPy_ne_raise (fun c => pyMul_ne_zeroDiv c n2) _)
      fun cs => make_ne_zeroDiv cs v.type

/-- `Vector.make` preserves the requested type tag. -/
theorem make_type {cs : List PyNum} {ty : Option PyTy} {r : Vector}
    (h : Vector.make cs ty = .ok r) : r.type = ty := by
  cases ty with
  | none =>
    simp only [Vector.make] at h
    injection h with h
    rw [← h]
  | some t =>
    simp only [Vector.make] at h
    cases hm : mapPy (coerceCoord t) cs with
    | ok cs2 =>
      rw [hm, PyRes.bind_ok] at h
      injection h with h
      rw [← h]
    | raise e =>
      rw [hm, PyRes.bind_raise] at h
      exact absurd h (by simp)

/-! ## Coordinate kinds and well-formed vectors -/

/-- `n` is a `Decimal`. -/
def isDecB : PyNum → Bool
  | .dec _ => true
  | _ => false

/-- `n` is a `float`. -/
def isFloatB : PyNum → Bool
  | .float _ => true
  | _ => false

/-- `n` is an `int` or a `float`. -/
def isIFB : PyNum → Bool
  | .int _ => true
  | .float _ => true
  | .dec _ => false

/-- A vector as `Vector.__init__` can actually produce it: a `Decimal`-mode
vector holds `Decimal` coordinates, a `float`-mode vector holds floats, and an
untagged vector holds the `int`/`float` values it was given.  This is the
spec's data-model invariant ("all of the same representation"). -/
def Wf (v : Vector) : Bool :=
  match v.type with
  | some .dec => v.coordinates.all isDecB
  | some .float => v.coordinates.all isFloatB
  | none => v.coordinates.all isIFB

theorem pyAdd_dec_left {a b c : PyNum} (ha : isDecB a = true)
    (h : pyAdd a b = .ok c) : isDecB c = true := by
  cases a with
  | int z => exact absurd ha (by simp [isDecB])
  | float q => exact absurd ha (by simp [isDecB])
  | dec d =>
    cases b with
    | int z => injection h with h; subst h; rfl
    | float q => simp [pyAdd] at h
    | dec d2 => injection h with h; subst h; rfl

theorem pySub_dec_left {a b c : PyNum} (ha : isDecB a = true)
    (h : pySub a b = .ok c) : isDecB c = true := by
  cases a with
  | int z => exact absurd ha (by simp [isDecB])
  | float q => exact absurd ha (by simp [isDecB])
  | dec d =>
    cases b with
    | int z => injection h with h; subst h; rfl
    | float q => simp [pySub] at h
    | dec d2 => injection h with h; subst h; rfl

theorem pyAdd_float_left {a b c : PyNum} (ha : isFloatB a = true)
    (h : pyAdd a b = .ok c) : isFloatB c = true := by
  cases a with
  | int z => exact absurd ha (by simp [isFloatB])
  | dec d => exact absurd ha (by simp [isFloatB])
  | float q =>
    cases b with
    | int z => injection h with h; subst h; rfl
    | float q2 => injection h with h; subst h; rfl
    | dec d2 => simp [pyAdd] at h

theorem pySub_float_left {a b c : PyNum} (ha : isFloatB a = true)
    (h : pySub a b = .ok c) : isFloatB c = true := by
  cases a with
  | int z => exact absurd ha (by simp [isFloatB])
  | dec d => exact absurd ha (by simp [isFloatB])
  | float q =>
    cases b with
    | int z => injection h with h; subst h; rfl
    | float q2 => injection h with h; subst h; rfl
    | dec d2 => simp [pySub] at h

theorem pyAdd_if {a b c : PyNum} (ha : isIFB a = true) (hb : isIFB b = true)
    (h : pyAdd a b = .ok c) : isIFB c = true := by
  cases a with
  | dec d => exact absurd ha (by simp [isIFB])
  | int z =>
    cases b with
    | int z2 => injection h with h; subst h; rfl
    | float q2 => injection h with h; subst h; rfl
    | dec d2 => exact absurd hb (by simp [isIFB])
  | float q =>
    cases b with
    | int z2 => injection h with h; subst h; rfl
    | float q2 => injection h with h; subst h; rfl
    | dec d2 => exact absurd hb (by simp [isIFB])

theorem pySub_if {a b c : PyNum} (ha : isIFB a = true) (hb : isIFB b = true)
    (h : pySub a b = .ok c) : isIFB c = true := by
  cases a with
  | dec d => exact absurd ha (by simp [isIFB])
  | int z =>
    cases b with
    | int z2 => injection h with h; subst h; rfl
    | float q2 => injection h with h; subst h; rfl
    | dec d2 => exact absurd hb (by simp [isIFB])
  | float q =>
    cases b with
    | int z2 => injection h with h; subst h; rfl
    | float q2 => injection h with h; subst h; rfl
    | dec d2 => exact absurd hb (by simp [isIFB])

/-- `zipWithPy` propagates a kind invariant of the left operands. -/
theorem zipWithPy_kind_left {f : PyNum → PyNum → PyRes PyNum} {p : PyNum → Bool}
    (hf : ∀ a b c, p a = true → f a b = .ok c → p c = true) :
    ∀ as bs cs, (∀ a ∈ as, p a = true) → zipWithPy f as bs = .ok cs →
      ∀ c ∈ cs, p c = true := by
  intro as
  induction as with
  | nil => intro bs cs _ h; cases bs <;> simp_all [zipWithPy]
  | cons a as ih =>
    intro bs cs has h
    cases bs with
    | nil =>
      simp only [zipWithPy] at h
      injection h with h
      simp [← h]
    | cons b bs =>
      simp only [zipWithPy] at h
      cases hfa : f a b with
      | raise e => rw [hfa] at h; exact absurd h (by simp)
      | ok c0 =>
        rw [hfa] at h
        simp only [PyRes.bind_ok] at h
        cases hz : zipWithPy f as bs with
        | raise e => rw [hz] at h; exact absurd h (by simp)
        | ok cs0 =>
          rw [hz] at h
          simp only [PyRes.bind_ok] at h
          injection h with h
          subst h
          intro c hc
          rcases List.mem_cons.mp hc with rfl | hc
          · exact hf a b c (has a (by simp)) hfa
          · exact ih bs cs0 (fun x hx => has x (by simp [hx])) hz c hc

/-- `zipWithPy` propagates a two-sided kind invariant. -/
theorem zipWithPy_kind_both {f : PyNum → PyNum → PyRes PyNum} {p : PyNum → Bool}
    (hf : ∀ a b c, p a = true → p b = true → f a b = .ok c → p c = true) :
    ∀ as bs cs, (∀ a ∈ as, p a = true) → (∀ b ∈ bs, p b = true) →
      zipWithPy f as bs = .ok cs → ∀ c ∈ cs, p c = true := by
  intro as
  induction as with
  | nil => intro bs cs _ _ h; cases bs <;> simp_all [zipWithPy]
  | cons a as ih =>
    intro bs cs has hbs h
    cases bs with
    | nil =>
      simp only [zipWithPy] at h
      injection h with h
      simp [← h]
    | cons b bs =>
      simp only [zipWithPy] at h
      cases hfa : f a b with
      | raise e => rw [hfa] at h; exact absurd h (by simp)
      | ok c0 =>
        rw [hfa] at h
        simp only [PyRes.bind_ok] at h
        cases hz : zipWithPy f as bs with
        | raise e => rw [hz] at h; exact absurd h (by simp)
        | ok cs0 =>
          rw [hz] at h
          simp only [PyRes.bind_ok] at h
          injection h with h
          subst h
          intro c hc
          rcases List.mem_cons.mp hc with rfl | hc
          · exact hf a b c (has a (by simp)) (hbs b (by simp)) hfa
          · exact ih bs cs0 (fun x hx => has x (by simp [hx]))
              (fun x hx => hbs x (by simp [hx])) hz c hc

/-- `zipWithPy` preserves the length of equal-length inputs. -/
theorem zipWithPy_length {f : PyNum → PyNum → PyRes PyNum} :
    ∀ {as bs cs}, as.length = bs.length → zipWithPy f as bs = .ok cs →
      cs.length = as.length := by
  intro as
  induction as with
  | nil =>
    intro bs cs _ h
    cases bs <;> simp_all [zipWithPy]
  | cons a as ih =>
    intro bs cs hl h
    cases bs with
    | nil => simp at hl
    | cons b bs =>
      simp only [zipWithPy] at h
      cases hfa : f a b with
      | raise e => rw [hfa] at h; exact absurd h (by simp)
      | ok c0 =>
        rw [hfa] at h
        simp only [PyRes.bind_ok] at h
        cases hz : zipWithPy f as bs with
        | raise e => rw [hz] at h; exact absurd h (by simp)
        | ok cs0 =>
          rw [hz] at h
          simp only [PyRes.bind_ok] at h
          injection h with h
          subst h
          simp only [List.length_cons]
          rw [ih (by simpa using hl) hz]

/-- Constructing with the `Decimal` tag from all-`Decimal` coordinates is the
identity on the coordinates. -/
theorem make_dec_id {cs : List PyNum} (h : ∀ c ∈ cs, isDecB c = true) :
    Vector.make cs (some .dec) = .ok ⟨cs, some .dec⟩ := by
  have hmap : mapPy (coerceCoord .dec) cs = .ok cs := by
    induction cs with
    | nil => rfl
    | cons c cs ih =>
      have hc : isDecB c = true := h c (by simp)
      obtain ⟨d, rfl⟩ : ∃ d, c = .dec d := by
        cases c <;> simp_all [isDecB]
      simp only [mapPy, coerceCoord, PyRes.bind_ok]
      rw [ih fun x hx => h x (by simp [hx])]
      rfl
  simp only [Vector.make, hmap, PyRes.bind_ok]

/-- Constructing with the `float` tag from all-`float` coordinates is the
identity on the coordinates. -/
theorem make_float_id {cs : List PyNum} (h : ∀ c ∈ cs, isFloatB c = true) :
    Vector.make cs (some .float) = .ok ⟨cs, some .float⟩ := by
  have hmap : mapPy (coerceCoord .float) cs = .ok cs := by
    induction cs with
    | nil => rfl
    | cons c cs ih =>
      have hc : isFloatB c = true := h c (by simp)
      obtain ⟨q, rfl⟩ : ∃ q, c = .float q := by
        cases c <;> simp_all [isFloatB]
      simp only [mapPy, coerceCoord, PyNum.val, PyRes.bind_ok]
      rw [ih fun x hx => h x (by simp [hx])]
      rfl
  simp only [Vector.make, hmap, PyRes.bind_ok]

/-! ## Claim C4 -/

/-- Claim C4: vector addition and subtraction fail with the
dimension-mismatch `ValueError` when the dimensions differ, and whenever they
produce a result its numeric-mode tag is the shared tag if both operands
carry the identical mode and `None` (floating behaviour) otherwise. -/
theorem add_sub_mix_types (v w : Vector) :
    (v.dimension ≠ w.dimension →
      v.add w = .raise (.valueErr "addition undefined on vectors of different dimensions")
      ∧ v.sub w = .raise (.valueErr "subtraction undefined on vectors of different dimensions"))
    ∧ (∀ r, v.add w = .ok r → r.type = (if v.type = w.type then v.type else none))
    ∧ (∀ r, v.sub w = .ok r → r.type = (if v.type = w.type then v.type else none)) := by
  refine ⟨fun h => ⟨?_, ?_⟩, ?_, ?_⟩
  · unfold Vector.add; rw [if_pos h]
  · unfold Vector.sub; rw [if_pos h]
  · intro r hr
    unfold Vector.add at hr
    by_cases h : v.dimension ≠ w.dimension
    · rw [if_pos h] at hr; exact absurd hr (by simp)
    · rw [if_neg h] at hr
      cases hz : zipWithPy pyAdd v.coordinates w.coordinates with
      | ok cs =>
        rw [hz, PyRes.bind_ok] at hr
        rw [make_type hr]
        rfl
      | raise e => rw [hz, PyRes.bind_raise] at hr; exact absurd hr (by simp)
  · intro r hr
    unfold Vector.sub at hr
    by_cases h : v.dimension ≠ w.dimension
    · rw [if_pos h] at hr; exact absurd hr (by simp)
    · rw [if_neg h] at hr
      cases hz : zipWithPy pySub v.coordinates w.coordinates with
      | ok cs =>
        rw [hz, PyRes.bind_ok] at hr
        rw [make_type hr]
        rfl
      | raise e => rw [hz, PyRes.bind_raise] at hr; exact absurd hr (by simp)

/-- Witness for `add_sub_mix_types`: a dimension mismatch raises, and adding a
`Decimal`-mode vector to an untagged one yields an untagged result. -/
theorem add_sub_mix_types_witness :
    Vector.add ⟨[.int 1, .int 2], none⟩ ⟨[.int 1], none⟩
      = .raise (.valueErr "addition undefined on vectors of different dimensions")
    ∧ Vector.type ⟨[.dec ⟨3, 0⟩], none⟩
      = (if (some PyTy.dec : Option PyTy) = none then some PyTy.dec else none) :=
  ⟨((add_sub_mix_types ⟨[.int 1, .int 2], none⟩ ⟨[.int 1], none⟩).1 (by decide)).1,
   (add_sub_mix_types ⟨[.dec ⟨1, 0⟩], some .dec⟩ ⟨[.int 2], none⟩).2.1
     ⟨[.dec ⟨3, 0⟩], none⟩ (by decide)⟩

/-! ## Claim C6 -/

/-- Claim C6: when `magnitude` evaluates to `m`, `normalized` fails with
`ValueError("cannot normalize the zero vector")` exactly when `m` is zero, and
otherwise performs `v * (1 / magnitude)`. -/
theorem normalized_zero_and_nonzero (v : Vector) (m : PyNum)
    (h : v.magnitude = .ok m) :
    (m.val = 0 → v.normalized = .raise (.valueErr NORM_ZERO_ERR_MSG))
    ∧ (m.val ≠ 0 → ∃ n, pyDiv (.int 1) m = .ok n ∧ v.normalized = v.mul n) := by
  constructor
  · intro h0
    unfold Vector.normalized
    rw [h]
    simp only [PyRes.bind_ok]
    rw [pyDiv_one_raise h0]
  · intro h0
    obtain ⟨n, hn⟩ := pyDiv_one_ok h0
    refine ⟨n, hn, ?_⟩
    unfold Vector.normalized
    rw [h]
    simp only [PyRes.bind_ok]
    rw [hn]
    simp only [PyRes.bind_ok]
    have hne := mul_ne_zeroDiv v n
    cases hm : v.mul n with
    | ok a => rfl
    | raise e =>
      cases e with
      | zeroDiv => exact absurd hm hne
      | valueErr s => rfl
      | typeErr s => rfl
      | attrErr => rfl

/-- Witness for `normalized_zero_and_nonzero` on the zero vector. -/
theorem normalized_zero_and_nonzero_witness :
    Vector.normalized ⟨[.float 0, .float 0], none⟩ = .raise (.valueErr NORM_ZERO_ERR_MSG) :=
  (normalized_zero_and_nonzero ⟨[.float 0, .float 0], none⟩ (.float 0) (by decide)).1 rfl

/-! ## Exact cancellation of decimals -/

@[simp] theorem PyNum.val_int (z : ℤ) : (PyNum.int z).val = (z : ℚ) := rfl

@[simp] theorem PyNum.val_float (q : ℚ) : (PyNum.float q).val = q := rfl

@[simp] theorem PyNum.val_dec (d : Dec) : (PyNum.dec d).val = d.val := rfl

@[simp] theorem Dec.val_zero_c (e : ℤ) : Dec.val ⟨0, e⟩ = 0 := by simp [Dec.val]

theorem fixDec_zero (e : ℤ) : fixDec 0 e = ⟨0, e⟩ := rfl

/-- Two equal-valued decimals have equal coefficients once aligned to the
common exponent. -/
theorem dec_aligned_eq {x y : Dec} (h : x.val = y.val) :
    x.c * 10 ^ (x.e - min x.e y.e).toNat = y.c * 10 ^ (y.e - min x.e y.e).toNat := by
  have h10 : (10 : ℚ) ≠ 0 := by norm_num
  have hx : ((x.e - min x.e y.e).toNat : ℤ) = x.e - min x.e y.e :=
    Int.toNat_of_nonneg (by omega)
  have hy : ((y.e - min x.e y.e).toNat : ℤ) = y.e - min x.e y.e :=
    Int.toNat_of_nonneg (by omega)
  have hq : (x.c : ℚ) * 10 ^ ((x.e - min x.e y.e).toNat)
      = (y.c : ℚ) * 10 ^ ((y.e - min x.e y.e).toNat) := by
    have e1 : ((10 : ℚ) ^ ((x.e - min x.e y.e).toNat) : ℚ) = 10 ^ (x.e - min x.e y.e) := by
      rw [← zpow_natCast, hx]
    have e2 : ((10 : ℚ) ^ ((y.e - min x.e y.e).toNat) : ℚ) = 10 ^ (y.e - min x.e y.e) := by
      rw [← zpow_natCast, hy]
    rw [e1, e2]
    have hval : (x.c : ℚ) * 10 ^ x.e = y.c * 10 ^ y.e := h
    calc (x.c : ℚ) * 10 ^ (x.e - min x.e y.e)
        = (x.c * 10 ^ x.e) * 10 ^ (-(min x.e y.e)) := by
          rw [mul_assoc, ← zpow_add₀ h10, sub_eq_add_neg]
      _ = (y.c * 10 ^ y.e) * 10 ^ (-(min x.e y.e)) := by rw [hval]
      _ = y.c * 10 ^ (y.e - min x.e y.e) := by
          rw [mul_assoc, ← zpow_add₀ h10, sub_eq_add_neg]
  exact_mod_cast hq

/-- Subtracting a decimal from an equal-valued decimal cancels exactly: the
aligned coefficients agree, so `decSub` produces a zero coefficient without
any rounding. -/
theorem decSub_eq_zero {x y : Dec} (h : x.val = y.val) :
    decSub x y = ⟨0, min x.e y.e⟩ := by
  simp only [decSub]
  rw [dec_aligned_eq h, sub_self]
  exact fixDec_zero _

/-- Coordinate-level round-trip: if `s = a + b` and `t = s - b` succeeded and
`t` has the same numeric value as `a`, then `t - a` succeeds and is zero. -/
theorem coord_roundtrip {a b s t : PyNum}
    (h1 : pyAdd a b = .ok s) (h2 : pySub s b = .ok t) (hv : t.val = a.val) :
    ∃ d, pySub t a = .ok d ∧ d.val = 0 := by
  cases a with
  | int az =>
    cases b with
    | int bz =>
      injection h1 with h1; subst h1
      injection h2 with h2; subst h2
      refine ⟨_, rfl, ?_⟩
      simp only [pySub, PyNum.val_int]
      push_cast
      ring
    | float bq =>
      injection h1 with h1; subst h1
      injection h2 with h2; subst h2
      refine ⟨_, rfl, ?_⟩
      simp only [pySub, PyNum.val_float, PyNum.val_int]
      ring
    | dec bd =>
      injection h1 with h1; subst h1
      injection h2 with h2; subst h2
      refine ⟨_, rfl, ?_⟩
      simp only [PyNum.val_dec]
      rw [@decSub_eq_zero (decSub (decAdd ⟨az, 0⟩ bd) bd) ⟨az, 0⟩ ?_]
      · simp
      · simp only [PyNum.val_dec, PyNum.val_int] at hv
        rw [hv]
        simp [Dec.val]
  | float aq =>
    cases b with
    | int bz =>
      injection h1 with h1; subst h1
      injection h2 with h2; subst h2
      refine ⟨_, rfl, ?_⟩
      simp only [pySub, PyNum.val_float]
      ring
    | float bq =>
      injection h1 with h1; subst h1
      injection h2 with h2; subst h2
      refine ⟨_, rfl, ?_⟩
      simp only [pySub, PyNum.val_float]
      ring
    | dec bd => simp [pyAdd] at h1
  | dec ad =>
    cases b with
    | int bz =>
      injection h1 with h1; subst h1
      injection h2 with h2; subst h2
      refine ⟨_, rfl, ?_⟩
      simp only [PyNum.val_dec]
      rw [decSub_eq_zero ?_]
      · simp
      · simpa using hv
    | float bq => simp [pyAdd] at h1
    | dec bd =>
      injection h1 with h1; subst h1
      injection h2 with h2; subst h2
      refine ⟨_, rfl, ?_⟩
      simp only [PyNum.val_dec]
      rw [decSub_eq_zero ?_]
      · simp
      · simpa using hv

/-! ## Sums and magnitudes of zero-valued coordinate lists -/

theorem pySq_val_zero {c : PyNum} (h : c.val = 0) : (pySq c).val = 0 := by
  cases c with
  | int z =>
    rw [PyNum.val_int] at h
    have : z = 0 := by exact_mod_cast h
    simp [pySq, this]
  | float q =>
    have : q = 0 := by simpa using h
    simp [pySq, this]
  | dec d =>
    have hc : d.c = 0 := (Dec.val_eq_zero_iff d).mp (by simpa using h)
    simp only [pySq, decPow2, hc]
    norm_num
    rw [fixDec_zero]
    simp

theorem pySq_dec {c : PyNum} (h : isDecB c = true) : isDecB (pySq c) = true := by
  cases c <;> simp_all [pySq, isDecB]

theorem pySq_if {c : PyNum} (h : isIFB c = true) : isIFB (pySq c) = true := by
  cases c <;> simp_all [pySq, isIFB]

theorem decAdd_zero {x y : Dec} (hx : x.c = 0) (hy : y.c = 0) :
    decAdd x y = ⟨0, min x.e y.e⟩ := by
  simp only [decAdd, hx, hy, zero_mul, add_zero]
  exact fixDec_zero _

theorem pyAdd_if_ok {a b : PyNum} (ha : isIFB a = true) (hb : isIFB b = true) :
    ∃ c, pyAdd a b = .ok c ∧ isIFB c = true ∧ c.val = a.val + b.val := by
  cases a with
  | dec d => exact absurd ha (by simp [isIFB])
  | int z =>
    cases b with
    | int z2 => exact ⟨_, rfl, rfl, by simp⟩
    | float q2 => exact ⟨_, rfl, rfl, rfl⟩
    | dec d2 => exact absurd hb (by simp [isIFB])
  | float q =>
    cases b with
    | int z2 => exact ⟨_, rfl, rfl, rfl⟩
    | float q2 => exact ⟨_, rfl, rfl, rfl⟩
    | dec d2 => exact absurd hb (by simp [isIFB])

/-- Folding `int`/`float` values adds their exact values. -/
theorem foldPy_if {acc : PyNum} {cs : List PyNum} (ha : isIFB acc = true)
    (hk : ∀ c ∈ cs, isIFB c = true) :
    ∃ s, foldPy acc cs = .ok s ∧ isIFB s = true
      ∧ s.val = acc.val + (cs.map PyNum.val).sum := by
  induction cs generalizing acc with
  | nil => exact ⟨acc, rfl, ha, by simp⟩
  | cons c cs ih =>
    obtain ⟨c2, hadd, hck, hcv⟩ := pyAdd_if_ok ha (hk c (by simp))
    obtain ⟨s, hs, hsk, hsv⟩ := ih hck fun x hx => hk x (List.mem_cons_of_mem _ hx)
    refine ⟨s, ?_, hsk, ?_⟩
    · simp only [foldPy, hadd, PyRes.bind_ok, hs]
    · rw [hsv, hcv]
      simp only [List.map_cons, List.sum_cons]
      ring

/-- Folding decimals always succeeds and yields a decimal. -/
theorem foldPy_dec {acc : Dec} {cs : List PyNum} (hk : ∀ c ∈ cs, isDecB c = true) :
    ∃ d : Dec, foldPy (.dec acc) cs = .ok (.dec d) := by
  induction cs generalizing acc with
  | nil => exact ⟨acc, rfl⟩
  | cons c cs ih =>
    obtain ⟨y, rfl⟩ : ∃ y, c = .dec y := by
      have := hk c (by simp)
      cases c <;> simp_all [isDecB]
    obtain ⟨d, hd⟩ := @ih (decAdd acc y) fun x hx => hk x (List.mem_cons_of_mem _ hx)
    exact ⟨d, by simp only [foldPy, pyAdd, PyRes.bind_ok, hd]⟩

/-- Folding zero decimals keeps the coefficient zero. -/
theorem foldPy_dec_zero {acc : Dec} {cs : List PyNum} (hacc : acc.c = 0)
    (hk : ∀ c ∈ cs, isDecB c = true) (hz : ∀ c ∈ cs, c.val = 0) :
    ∃ d : Dec, foldPy (.dec acc) cs = .ok (.dec d) ∧ d.c = 0 := by
  induction cs generalizing acc with
  | nil => exact ⟨acc, rfl, hacc⟩
  | cons c cs ih =>
    obtain ⟨y, rfl⟩ : ∃ y, c = .dec y := by
      have := hk c (by simp)
      cases c <;> simp_all [isDecB]
    have hy : y.c = 0 := (Dec.val_eq_zero_iff y).mp (by simpa using hz (PyNum.dec y) (List.mem_cons_self _ _))
    have hstep : decAdd acc y = ⟨0, min acc.e y.e⟩ := decAdd_zero hacc hy
    obtain ⟨d, hd, hdc⟩ := @ih (decAdd acc y) (by rw [hstep])
      (fun x hx => hk x (List.mem_cons_of_mem _ hx)) (fun x hx => hz x (List.mem_cons_of_mem _ hx))
    exact ⟨d, by simp only [foldPy, pyAdd, PyRes.bind_ok, hd], hdc⟩

theorem decSqrt_zero_c {d : Dec} (h : d.c = 0) : (decSqrt d).val = 0 := by
  simp only [decSqrt, h, if_pos rfl]
  simp

/-- Squared `int`/`float` coordinates that are all zero sum to zero. -/
theorem sumSq_zero_if {cs : List PyNum} (hk : ∀ c ∈ cs, isIFB c = true)
    (hz : ∀ c ∈ cs, c.val = 0) :
    ∃ s, sumPy (cs.map pySq) = .ok s ∧ s.val = 0 := by
  cases cs with
  | nil => exact ⟨.int 0, rfl, by simp⟩
  | cons c cs =>
    simp only [List.map_cons, sumPy]
    obtain ⟨s, hs, hsk, hsv⟩ := @foldPy_if (pySq c) (cs.map pySq) (pySq_if (hk c (by simp)))
      (fun x hx => by
        obtain ⟨x0, hx0, rfl⟩ := List.mem_map.mp hx
        exact pySq_if (hk x0 (List.mem_cons_of_mem _ hx0)))
    refine ⟨s, hs, ?_⟩
    rw [hsv, pySq_val_zero (hz c (by simp))]
    have hall : ∀ x ∈ (cs.map pySq).map PyNum.val, x = 0 := by
      intro x hx
      obtain ⟨x1, hx1, rfl⟩ := List.mem_map.mp hx
      obtain ⟨x0, hx0, rfl⟩ := List.mem_map.mp hx1
      exact pySq_val_zero (hz x0 (List.mem_cons_of_mem _ hx0))
    rw [List.sum_eq_zero hall]
    simp

/-- Squared all-`Decimal` zero coordinates sum to a zero decimal (or to the
`int` zero for the empty list). -/
theorem sumSq_zero_dec {cs : List PyNum} (hk : ∀ c ∈ cs, isDecB c = true)
    (hz : ∀ c ∈ cs, c.val = 0) :
    (cs = [] ∧ sumPy (cs.map pySq) = .ok (.int 0))
    ∨ (∃ d : Dec, sumPy (cs.map pySq) = .ok (.dec d) ∧ d.c = 0) := by
  cases cs with
  | nil => exact Or.inl ⟨rfl, rfl⟩
  | cons c0 cs0 =>
    refine Or.inr ?_
    have hc0 : isDecB c0 = true := hk c0 (List.mem_cons_self _ _)
    obtain ⟨y, rfl⟩ : ∃ y, c0 = .dec y := by
      cases c0 <;> simp_all [isDecB]
    have hyc : (decPow2 y).c = 0 := by
      have hv0 : (PyNum.dec y).val = 0 := hz _ (List.mem_cons_self _ _)
      have hyc0 : y.c = 0 := (Dec.val_eq_zero_iff y).mp (by simpa using hv0)
      simp only [decPow2, hyc0, mul_zero, zero_mul]
      rw [fixDec_zero]
    obtain ⟨d, hd, hdc⟩ := @foldPy_dec_zero (decPow2 y) (cs0.map pySq) hyc
      (fun x hx => by
        obtain ⟨x0, hx0, rfl⟩ := List.mem_map.mp hx
        exact pySq_dec (hk x0 (List.mem_cons_of_mem _ hx0)))
      (fun x hx => by
        obtain ⟨x0, hx0, rfl⟩ := List.mem_map.mp hx
        exact pySq_val_zero (hz x0 (List.mem_cons_of_mem _ hx0)))
    have hy : pySq (PyNum.dec y) = PyNum.dec (decPow2 y) := rfl
    refine ⟨d, ?_, hdc⟩
    simp only [List.map_cons, sumPy, hy, hd]

/-- A vector with homogeneous coordinate kinds whose coordinates are all
numerically zero has a magnitude that evaluates to zero (an empty
`Decimal`-mode vector is excluded: there `.sqrt()` raises `AttributeError`,
and a `Decimal`-mode vector must hold decimals). -/
theorem magnitude_zero {v : Vector}
    (hz : ∀ c ∈ v.coordinates, c.val = 0)
    (hkd : (∀ c ∈ v.coordinates, isDecB c = true) ∨ (∀ c ∈ v.coordinates, isIFB c = true))
    (hdec : v.type = some .dec →
      (∀ c ∈ v.coordinates, isDecB c = true) ∧ v.coordinates ≠ []) :
    ∃ m, v.magnitude = .ok m ∧ m.val = 0 := by
  unfold Vector.magnitude
  by_cases hty : v.type = some .dec
  · obtain ⟨hdecs, hne⟩ := hdec hty
    rcases sumSq_zero_dec hdecs hz with ⟨hnil, _⟩ | ⟨d, hd, hdc⟩
    · exact absurd hnil hne
    · rw [hd]
      simp only [PyRes.bind_ok, hty, if_pos rfl]
      refine ⟨_, rfl, ?_⟩
      simpa using decSqrt_zero_c hdc
  · have hok : ∃ s, sumPy (v.coordinates.map pySq) = .ok s ∧ s.val = 0 := by
      rcases hkd with hdecs | hif
      · rcases sumSq_zero_dec hdecs hz with ⟨_, hs⟩ | ⟨d, hd, hdc⟩
        · exact ⟨.int 0, hs, by simp⟩
        · exact ⟨.dec d, hd, by simpa using (Dec.val_eq_zero_iff d).mpr hdc⟩
      · exact sumSq_zero_if hif hz
    obtain ⟨s, hs, hsv⟩ := hok
    rw [hs]
    simp only [PyRes.bind_ok, if_neg hty]
    unfold mathSqrt
    rw [hsv]
    norm_num

/-- A homogeneous vector with zero-valued coordinates is reported zero by
`is_zero`. -/
theorem is_zero_of_zero_coords {v : Vector}
    (hz : ∀ c ∈ v.coordinates, c.val = 0)
    (hkd : (∀ c ∈ v.coordinates, isDecB c = true) ∨ (∀ c ∈ v.coordinates, isIFB c = true))
    (hdec : v.type = some .dec →
      (∀ c ∈ v.coordinates, isDecB c = true) ∧ v.coordinates ≠ []) :
    v.is_zero = .ok true := by
  obtain ⟨m, hm, hv⟩ := magnitude_zero hz hkd hdec
  unfold Vector.is_zero
  rw [hm]
  simp only [PyRes.bind_ok, hv]
  norm_num [TOLERANCE]

/-- Unpack a successful `zipWithPy` on cons cells. -/
theorem zipWithPy_cons_ok {f : PyNum → PyNum → PyRes PyNum} {a b : PyNum}
    {as bs cs : List PyNum} (h : zipWithPy f (a :: as) (b :: bs) = .ok cs) :
    ∃ c cs0, f a b = .ok c ∧ zipWithPy f as bs = .ok cs0 ∧ cs = c :: cs0 := by
  simp only [zipWithPy] at h
  cases hfa : f a b with
  | raise e => rw [hfa] at h; exact absurd h (by simp)
  | ok c0 =>
    rw [hfa] at h
    simp only [PyRes.bind_ok] at h
    cases hz : zipWithPy f as bs with
    | raise e => rw [hz] at h; exact absurd h (by simp)
    | ok cs0 =>
      rw [hz] at h
      simp only [PyRes.bind_ok] at h
      injection h with h
      exact ⟨c0, cs0, rfl, rfl, h.symm⟩

/-- Zipped round-trip: coordinatewise `(a + b) - b`, when it reproduces the
values of `a`, subtracts from `a` to an all-zero list. -/
theorem zip_roundtrip :
    ∀ {as bs cs1 cs2 : List PyNum},
      as.length = bs.length →
      zipWithPy pyAdd as bs = .ok cs1 →
      zipWithPy pySub cs1 bs = .ok cs2 →
      cs2.map PyNum.val = as.map PyNum.val →
      ∃ cs3, zipWithPy pySub cs2 as = .ok cs3 ∧ ∀ c ∈ cs3, c.val = 0 := by
  intro as
  induction as with
  | nil =>
    intro bs cs1 cs2 hlen h1 h2 hval
    cases bs with
    | cons b bs => simp at hlen
    | nil =>
      simp only [zipWithPy] at h1
      injection h1 with h1
      subst h1
      simp only [zipWithPy] at h2
      injection h2 with h2
      subst h2
      exact ⟨[], rfl, by simp⟩
  | cons a as ih =>
    intro bs cs1 cs2 hlen h1 h2 hval
    cases bs with
    | nil => simp at hlen
    | cons b bs =>
      obtain ⟨s, cs1', hs, h1', rfl⟩ := zipWithPy_cons_ok h1
      obtain ⟨t, cs2', ht, h2', rfl⟩ := zipWithPy_cons_ok h2
      simp only [List.map_cons, List.cons.injEq] at hval
      obtain ⟨d, hd, hd0⟩ := coord_roundtrip hs ht hval.1
      obtain ⟨cs3', h3', hz3⟩ := ih (by simpa using hlen) h1' h2' hval.2
      refine ⟨d :: cs3', ?_, ?_⟩
      · simp only [zipWithPy, hd, PyRes.bind_ok, h3']
      · intro c hc
        rcases List.mem_cons.mp hc with rfl | hc
        · exact hd0
        · exact hz3 c hc

/-! ## Mode-uniform kind tracking -/

/-- The coordinate kind a vector of the given mode holds. -/
def modeKind : Option PyTy → PyNum → Bool
  | some .dec, c => isDecB c
  | some .float, c => isFloatB c
  | none, c => isIFB c

theorem Wf_mode {v : Vector} (hwf : Wf v = true) :
    ∀ c ∈ v.coordinates, modeKind v.type c = true := by
  intro c hc
  unfold Wf at hwf
  cases hty : v.type with
  | none => rw [hty] at hwf; exact List.all_eq_true.mp hwf c hc
  | some ty =>
    cases ty with
    | dec => rw [hty] at hwf; exact List.all_eq_true.mp hwf c hc
    | float => rw [hty] at hwf; exact List.all_eq_true.mp hwf c hc

theorem Wf_of_mode {cs : List PyNum} {ty : Option PyTy}
    (hk : ∀ c ∈ cs, modeKind ty c = true) : Wf ⟨cs, ty⟩ = true := by
  unfold Wf
  cases ty with
  | none => exact List.all_eq_true.mpr hk
  | some t => cases t <;> exact List.all_eq_true.mpr hk

theorem mode_pres_add {ty : Option PyTy} {a b c : PyNum}
    (ha : modeKind ty a = true) (hb : modeKind ty b = true)
    (h : pyAdd a b = .ok c) : modeKind ty c = true := by
  cases ty with
  | none => exact pyAdd_if ha hb h
  | some t =>
    cases t with
    | dec => exact pyAdd_dec_left ha h
    | float => exact pyAdd_float_left ha h

theorem mode_pres_sub {ty : Option PyTy} {a b c : PyNum}
    (ha : modeKind ty a = true) (hb : modeKind ty b = true)
    (h : pySub a b = .ok c) : modeKind ty c = true := by
  cases ty with
  | none => exact pySub_if ha hb h
  | some t =>
    cases t with
    | dec => exact pySub_dec_left ha h
    | float => exact pySub_float_left ha h

/-- Constructing a vector from coordinates already of the mode's kind is the
identity. -/
theorem make_mode_id {cs : List PyNum} {ty : Option PyTy}
    (hk : ∀ c ∈ cs, modeKind ty c = true) :
    Vector.make cs ty = .ok ⟨cs, ty⟩ := by
  cases ty with
  | none => rfl
  | some t =>
    cases t with
    | dec => exact make_dec_id hk
    | float => exact make_float_id hk

theorem mode_homog {ty : Option PyTy} {cs : List PyNum}
    (hk : ∀ c ∈ cs, modeKind ty c = true) :
    (∀ c ∈ cs, isDecB c = true) ∨ (∀ c ∈ cs, isIFB c = true) := by
  cases ty with
  | none => exact Or.inr hk
  | some t =>
    cases t with
    | dec => exact Or.inl hk
    | float =>
      refine Or.inr fun c hc => ?_
      have := hk c hc
      cases c <;> simp_all [modeKind, isFloatB, isIFB]

theorem mode_dec_of {ty : Option PyTy} {cs : List PyNum}
    (hk : ∀ c ∈ cs, modeKind ty c = true) (h : ty = some .dec) :
    ∀ c ∈ cs, isDecB c = true := by
  subst h; exact hk

/-- Unpack a successful vector addition. -/
theorem add_ok_unpack {v w s : Vector} (h : v.add w = .ok s) :
    v.dimension = w.dimension ∧
    ∃ cs, zipWithPy pyAdd v.coordinates w.coordinates = .ok cs ∧
      Vector.make cs (v.mix_types w) = .ok s := by
  unfold Vector.add at h
  by_cases hd : v.dimension ≠ w.dimension
  · rw [if_pos hd] at h; exact absurd h (by simp)
  · rw [if_neg hd] at h
    push_neg at hd
    refine ⟨hd, ?_⟩
    cases hz : zipWithPy pyAdd v.coordinates w.coordinates with
    | raise e => rw [hz] at h; exact absurd h (by simp)
    | ok cs => rw [hz, PyRes.bind_ok] at h; exact ⟨cs, rfl, h⟩

/-- Unpack a successful vector subtraction. -/
theorem sub_ok_unpack {v w s : Vector} (h : v.sub w = .ok s) :
    v.dimension = w.dimension ∧
    ∃ cs, zipWithPy pySub v.coordinates w.coordinates = .ok cs ∧
      Vector.make cs (v.mix_types w) = .ok s := by
  unfold Vector.sub at h
  by_cases hd : v.dimension ≠ w.dimension
  · rw [if_pos hd] at h; exact absurd h (by simp)
  · rw [if_neg hd] at h
    push_neg at hd
    refine ⟨hd, ?_⟩
    cases hz : zipWithPy pySub v.coordinates w.coordinates with
    | raise e => rw [hz] at h; exact absurd h (by simp)
    | ok cs => rw [hz, PyRes.bind_ok] at h; exact ⟨cs, rfl, h⟩

/-! ## Claim C8 -/

/-- Claim C8, counterexample: in exact-decimal mode, with `v = ['1']` and
`w = ['1E+30']`, the addition rounds to 28 significant digits, so
`v + w - w` is the zero vector and `v + w - w == v` is `False`. -/
theorem add_sub_roundtrip_cex :
    (do
      let s ← Vector.add ⟨[.dec ⟨1, 0⟩], some .dec⟩ ⟨[.dec ⟨1, 30⟩], some .dec⟩
      let t ← s.sub ⟨[.dec ⟨1, 30⟩], some .dec⟩
      t.eq ⟨[.dec ⟨1, 0⟩], some .dec⟩ : PyRes Bool) = .ok false := by decide

/-- Claim C8 as amended: for nonempty equal-dimension well-formed vectors of
the same numeric mode, whenever `v + w` and `(v + w) - w` succeed and the
round-trip reproduces the coordinate values of `v` exactly — always the case
for `int`/`float` coordinates in this exact model, and for `Decimal` mode
precisely when no precision-28 rounding occurred — the equality
`v + w - w == v` returns `True`.  (The counterexample shows the original
unconditional claim fails under `Decimal` rounding.) -/
theorem add_sub_roundtrip_exact (v w s t : Vector)
    (hty : w.type = v.type) (hwf_v : Wf v = true) (hwf_w : Wf w = true)
    (hpos : 0 < v.dimension)
    (h1 : v.add w = .ok s) (h2 : s.sub w = .ok t)
    (hval : t.coordinates.map PyNum.val = v.coordinates.map PyNum.val) :
    Vector.eq t v = .ok true := by
  have hkv : ∀ c ∈ v.coordinates, modeKind v.type c = true := Wf_mode hwf_v
  have hkw : ∀ c ∈ w.coordinates, modeKind v.type c = true := by
    rw [← hty]; exact Wf_mode hwf_w
  obtain ⟨hd1, cs1, hz1, hmk1⟩ := add_ok_unpack h1
  have hmix1 : v.mix_types w = v.type := by
    unfold Vector.mix_types
    rw [hty, if_pos rfl]
  rw [hmix1] at hmk1
  have hk1 : ∀ c ∈ cs1, modeKind v.type c = true :=
    zipWithPy_kind_both (fun _ _ _ => mode_pres_add) _ _ _ hkv hkw hz1
  rw [make_mode_id hk1] at hmk1
  injection hmk1 with hmk1
  subst hmk1
  have hlen1 : cs1.length = v.coordinates.length := zipWithPy_length hd1 hz1
  obtain ⟨hd2, cs2, hz2, hmk2⟩ := sub_ok_unpack h2
  have hmix2 : Vector.mix_types ⟨cs1, v.type⟩ w = v.type := by
    unfold Vector.mix_types
    rw [hty]
    simp
  rw [hmix2] at hmk2
  have hk2 : ∀ c ∈ cs2, modeKind v.type c = true :=
    zipWithPy_kind_both (fun _ _ _ => mode_pres_sub) _ _ _ hk1 hkw hz2
  rw [make_mode_id hk2] at hmk2
  injection hmk2 with hmk2
  subst hmk2
  have hlen2 : cs2.length = cs1.length := zipWithPy_length hd2 hz2
  obtain ⟨cs3, hz3, hz30⟩ := @zip_roundtrip _ w.coordinates _ _ hd1 hz1 hz2 hval
  have hk3 : ∀ c ∈ cs3, modeKind v.type c = true :=
    zipWithPy_kind_both (fun _ _ _ => mode_pres_sub) _ _ _ hk2 hkv hz3
  have hlen3 : cs3.length = cs2.length := by
    have : (cs2 : List PyNum).length = v.coordinates.length := by
      rw [hlen2, hlen1]
    exact zipWithPy_length this hz3
  unfold Vector.eq Vector.sub
  have hdim3 : ¬(Vector.dimension ⟨cs2, v.type⟩ ≠ v.dimension) := by
    unfold Vector.dimension
    simp only [ne_eq, not_not]
    rw [hlen2, hlen1]
  rw [if_neg hdim3]
  have hmix3 : Vector.mix_types ⟨cs2, v.type⟩ v = v.type := by
    unfold Vector.mix_types
    simp
  simp only [hz3, PyRes.bind_ok, hmix3, make_mode_id hk3]
  refine is_zero_of_zero_coords hz30 (mode_homog hk3) fun hd => ⟨mode_dec_of hk3 hd, ?_⟩
  intro hnil
  have hnil2 : cs3 = [] := hnil
  rw [hnil2] at hlen3
  unfold Vector.dimension at hpos
  simp only [List.length_nil] at hlen3
  omega

/-- Witness for `add_sub_roundtrip_exact` at concrete float vectors. -/
theorem add_sub_roundtrip_exact_witness :
    Vector.eq ⟨[.float 1], none⟩ ⟨[.float 1], none⟩ = .ok true :=
  add_sub_roundtrip_exact ⟨[.float 1], none⟩ ⟨[.float (5/2)], none⟩
    ⟨[.float (7/2)], none⟩ ⟨[.float 1], none⟩
    rfl (by decide) (by decide) (by decide) (by decide) (by decide) (by decide)

/-! ## Negation symmetry of the decimal context -/

theorem roundHalfEvenNat_le (a k : ℕ) : roundHalfEvenNat a k ≤ a / 10 ^ k + 1 := by
  simp only [roundHalfEvenNat]
  split
  · omega
  · split
    · omega
    · split <;> omega

/-- Context rounding always returns a coefficient below `10 ^ 28`. -/
theorem fixDec_coeff_lt (c e : ℤ) : (fixDec c e).c.natAbs < 10 ^ PREC := by
  unfold fixDec
  by_cases h : nd c.natAbs ≤ PREC
  · rw [if_pos h]
    exact (nd_le_iff (by norm_num [PREC])).mp h
  · rw [if_neg h]
    have hgt : PREC < nd c.natAbs := by omega
    have hk1 : 1 ≤ nd c.natAbs - PREC := by omega
    have hdiv : c.natAbs / 10 ^ (nd c.natAbs - PREC) < 10 ^ PREC := by
      rw [Nat.div_lt_iff_lt_mul (by positivity)]
      calc c.natAbs < 10 ^ nd c.natAbs := nd_self_lt _
      _ = 10 ^ PREC * 10 ^ (nd c.natAbs - PREC) := by
          rw [← pow_add]
          congr 1
          omega
    have hq := roundHalfEvenNat_le c.natAbs (nd c.natAbs - PREC)
    by_cases hcar : 10 ^ PREC ≤ roundHalfEvenNat c.natAbs (nd c.natAbs - PREC)
    · simp only [hcar, if_pos, if_true]
      have heq : roundHalfEvenNat c.natAbs (nd c.natAbs - PREC) = 10 ^ PREC := by omega
      have : (10 : ℕ) ^ PREC / 10 < 10 ^ PREC := by
        norm_num [PREC]
      split <;> simp only [Int.natAbs_neg, Int.natAbs_ofNat] <;> omega
    · simp only [hcar, if_neg, if_false]
      have : roundHalfEvenNat c.natAbs (nd c.natAbs - PREC) < 10 ^ PREC := by omega
      split <;> simp only [Int.natAbs_neg, Int.natAbs_ofNat] <;> omega

/-- A coefficient already below `10 ^ 28` is untouched by context rounding. -/
theorem fixDec_small_id {c : ℤ} (e : ℤ) (h : c.natAbs < 10 ^ PREC) :
    fixDec c e = ⟨c, e⟩ := by
  unfold fixDec
  rw [if_pos ((nd_le_iff (by norm_num [PREC])).mpr h)]

/-- Context rounding commutes with negation (half-even rounding acts on the
absolute value, and the sign is reapplied). -/
theorem fixDec_neg (c e : ℤ) :
    fixDec (-c) e = ⟨-(fixDec c e).c, (fixDec c e).e⟩ := by
  rcases lt_trichotomy c 0 with hc | hc | hc
  · unfold fixDec
    rw [Int.natAbs_neg]
    by_cases h : nd c.natAbs ≤ PREC
    · rw [if_pos h, if_pos h]
    · rw [if_neg h, if_neg h]
      have h1 : ¬(-c < 0) := by omega
      have h2 : c < 0 := hc
      simp only [h1, h2, if_false, if_true, neg_neg]
  · subst hc
    norm_num
    rw [fixDec_zero]
    simp
  · unfold fixDec
    rw [Int.natAbs_neg]
    by_cases h : nd c.natAbs ≤ PREC
    · rw [if_pos h, if_pos h]
    · rw [if_neg h, if_neg h]
      have h1 : -c < 0 := by omega
      have h2 : ¬(c < 0) := by omega
      simp only [h1, h2, if_false, if_true]

/-- Subtraction of decimals is antisymmetric on the nose: swapping the
operands negates the coefficient and keeps the exponent. -/
theorem decSub_swap (x y : Dec) :
    decSub y x = ⟨-(decSub x y).c, (decSub x y).e⟩ := by
  simp only [decSub]
  rw [min_comm y.e x.e]
  rw [show y.c * 10 ^ (y.e - min x.e y.e).toNat - x.c * 10 ^ (x.e - min x.e y.e).toNat
      = -(x.c * 10 ^ (x.e - min x.e y.e).toNat - y.c * 10 ^ (y.e - min x.e y.e).toNat) by ring]
  exact fixDec_neg _ _

/-- Negation of a Python number at the representation level. -/
def negRep : PyNum → PyNum
  | .int z => .int (-z)
  | .float q => .float (-q)
  | .dec d => .dec ⟨-d.c, d.e⟩

/-- Swapping the operands of a successful Python subtraction negates the
result exactly, at the representation level. -/
theorem pySub_swap {p q s : PyNum} (h : pySub p q = .ok s) :
    pySub q p = .ok (negRep s) := by
  cases p with
  | int a =>
    cases q with
    | int b =>
      injection h with h; subst h
      simp only [pySub, negRep]
      norm_num
    | float b =>
      injection h with h; subst h
      simp only [pySub, negRep]
      norm_num
    | dec b =>
      injection h with h; subst h
      simp only [pySub, negRep]
      rw [decSub_swap]
  | float a =>
    cases q with
    | int b =>
      injection h with h; subst h
      simp only [pySub, negRep]
      norm_num
    | float b =>
      injection h with h; subst h
      simp only [pySub, negRep]
      norm_num
    | dec b => simp [pySub] at h
  | dec a =>
    cases q with
    | int b =>
      injection h with h; subst h
      simp only [pySub, negRep]
      rw [decSub_swap]
    | float b => simp [pySub] at h
    | dec b =>
      injection h with h; subst h
      simp only [pySub, negRep]
      rw [decSub_swap]

/-- A decimal produced by a Python subtraction has a context-bounded
coefficient. -/
theorem decSub_coeff_lt (x y : Dec) : (decSub x y).c.natAbs < 10 ^ PREC := by
  simp only [decSub]
  exact fixDec_coeff_lt _ _

theorem pySub_dec_coeff {p q : PyNum} {d : Dec} (h : pySub p q = .ok (.dec d)) :
    d.c.natAbs < 10 ^ PREC := by
  cases p <;> cases q <;>
    first
      | (injection h with h
         injection h with h
         subst h
         exact decSub_coeff_lt _ _)
      | simp [pySub] at h

/-- Subtracting a number from itself gives a zero value of the same kind. -/
theorem pySub_self (s : PyNum) :
    ∃ d, pySub s s = .ok d ∧ d.val = 0
      ∧ (isDecB s = true → isDecB d = true) ∧ (isIFB s = true → isIFB d = true) := by
  cases s with
  | int z => exact ⟨.int 0, by simp [pySub], by simp, by simp [isDecB], by simp [isIFB]⟩
  | float q => exact ⟨.float 0, by simp [pySub], by simp, by simp [isDecB], by simp [isIFB]⟩
  | dec d =>
    refine ⟨.dec (decSub d d), rfl, ?_, by simp [isDecB], by simp [isIFB]⟩
    rw [decSub_eq_zero rfl]
    simp

/-- Multiplying the representation-level negation by the scalar `-1` restores
the original number, provided a decimal's coefficient fits the context (true
of every subtraction result). -/
theorem pyMul_negRep_negOne {s : PyNum}
    (hd : ∀ d : Dec, s = .dec d → d.c.natAbs < 10 ^ PREC) :
    pyMul (negRep s) (.int (-1)) = .ok s := by
  cases s with
  | int z =>
    simp only [negRep, pyMul]
    norm_num
  | float q =>
    simp only [negRep, pyMul]
    norm_num
  | dec d =>
    simp only [negRep, pyMul, decMul]
    rw [show (-d.c * -1 : ℤ) = d.c by ring, show (d.e + 0 : ℤ) = d.e by ring]
    rw [fixDec_small_id d.e (hd d rfl)]

theorem bind_ok_iff {α β : Type} {x : PyRes α} {f : α → PyRes β} {b : β} :
    (x >>= f) = .ok b ↔ ∃ a, x = .ok a ∧ f a = .ok b := by
  cases x with
  | ok a =>
    simp only [PyRes.bind_ok]
    constructor
    · intro h; exact ⟨a, rfl, h⟩
    · rintro ⟨a2, ha2, hf⟩
      injection ha2 with ha2
      subst ha2
      exact hf
  | raise e =>
    simp only [PyRes.bind_raise]
    constructor
    · intro h; exact absurd h (by simp)
    · rintro ⟨a2, ha2, _⟩; exact absurd ha2 (by simp)

theorem pyMul_dec_left {a b c : PyNum} (ha : isDecB a = true)
    (h : pyMul a b = .ok c) : isDecB c = true := by
  cases a with
  | int z => exact absurd ha (by simp [isDecB])
  | float q => exact absurd ha (by simp [isDecB])
  | dec d =>
    cases b with
    | int z => injection h with h; subst h; rfl
    | float q => simp [pyMul] at h
    | dec d2 => injection h with h; subst h; rfl

theorem pyMul_if {a b c : PyNum} (ha : isIFB a = true) (hb : isIFB b = true)
    (h : pyMul a b = .ok c) : isIFB c = true := by
  cases a with
  | dec d => exact absurd ha (by simp [isIFB])
  | int z =>
    cases b with
    | int z2 => injection h with h; subst h; rfl
    | float q2 => injection h with h; subst h; rfl
    | dec d2 => exact absurd hb (by simp [isIFB])
  | float q =>
    cases b with
    | int z2 => injection h with h; subst h; rfl
    | float q2 => injection h with h; subst h; rfl
    | dec d2 => exact absurd hb (by simp [isIFB])

/-! ## Claim C7 -/

/-- Claim C7: `cross` fails with the dimension `ValueError` unless both
operands are 3-dimensional, and on kind-homogeneous coordinate lists it is
anticommutative under the mode-aware equality: `-1 * w.cross(v)` is
bit-for-bit `v.cross(w)`, and comparing them with `==` yields `True`. -/
theorem cross_anticommutative (v w : Vector) :
    (¬(v.dimension = 3 ∧ w.dimension = 3) →
      v.cross w = .raise (.valueErr "cross product only defined for 3-dimensional vectors"))
    ∧ (∀ a c,
        ((∀ x ∈ v.coordinates, isDecB x = true) ∧ (∀ x ∈ w.coordinates, isDecB x = true)
          ∨ (∀ x ∈ v.coordinates, isIFB x = true) ∧ (∀ x ∈ w.coordinates, isIFB x = true)) →
        v.cross w = .ok a → w.cross v = .ok c →
        ∃ b, c.mul (.int (-1)) = .ok b ∧ a.eq b = .ok true) := by
  constructor
  · intro h
    unfold Vector.cross
    rw [if_pos h]
  · intro a c hkinds h1 h2
    by_cases hdim : v.dimension = 3 ∧ w.dimension = 3
    case neg =>
      unfold Vector.cross at h1
      rw [if_pos hdim] at h1
      exact absurd h1 (by simp)
    case pos =>
      have hdimw : w.dimension = 3 ∧ v.dimension = 3 := ⟨hdim.2, hdim.1⟩
      obtain ⟨v0, v1, v2, hv⟩ := List.length_eq_three.mp hdim.1
      obtain ⟨w0, w1, w2, hw⟩ := List.length_eq_three.mp hdim.2
      unfold Vector.cross at h1 h2
      rw [if_neg (not_not_intro hdim)] at h1
      rw [if_neg (not_not_intro hdimw)] at h2
      rw [hv, hw] at h1 h2
      simp only [List.getD_cons_zero, List.getD_cons_succ] at h1 h2
      rw [bind_ok_iff] at h1; obtain ⟨p1, hp1, h1⟩ := h1
      rw [bind_ok_iff] at h1; obtain ⟨p2, hp2, h1⟩ := h1
      rw [bind_ok_iff] at h1; obtain ⟨s1, hs1, h1⟩ := h1
      rw [bind_ok_iff] at h1; obtain ⟨q1, hq1, h1⟩ := h1
      rw [bind_ok_iff] at h1; obtain ⟨q2, hq2, h1⟩ := h1
      rw [bind_ok_iff] at h1; obtain ⟨s2, hs2, h1⟩ := h1
      rw [bind_ok_iff] at h1; obtain ⟨r1, hr1, h1⟩ := h1
      rw [bind_ok_iff] at h1; obtain ⟨r2, hr2, h1⟩ := h1
      rw [bind_ok_iff] at h1; obtain ⟨s3, hs3, h1⟩ := h1
      injection h1 with h1
      subst h1
      rw [hp2, PyRes.bind_ok, hp1, PyRes.bind_ok, pySub_swap hs1, PyRes.bind_ok,
        hq2, PyRes.bind_ok, hq1, PyRes.bind_ok, pySub_swap hs2, PyRes.bind_ok,
        hr2, PyRes.bind_ok, hr1, PyRes.bind_ok, pySub_swap hs3, PyRes.bind_ok] at h2
      injection h2 with h2
      subst h2
      have hm1 := pyMul_negRep_negOne (s := s1) fun d hd => pySub_dec_coeff (hd ▸ hs1)
      have hm2 := pyMul_negRep_negOne (s := s2) fun d hd => pySub_dec_coeff (hd ▸ hs2)
      have hm3 := pyMul_negRep_negOne (s := s3) fun d hd => pySub_dec_coeff (hd ▸ hs3)
      have hb : Vector.mul ⟨[negRep s1, negRep s2, negRep s3], none⟩ (.int (-1))
          = .ok ⟨[s1, s2, s3], none⟩ := by
        unfold Vector.mul convertScalar
        simp only [if_neg (show ¬((none : Option PyTy) = some PyTy.dec) by simp),
          PyRes.bind_ok, mapPy, hm1, hm2, hm3]
        rfl
      refine ⟨⟨[s1, s2, s3], none⟩, hb, ?_⟩
      obtain ⟨d1, hd1, hd1v, hd1dec, hd1if⟩ := pySub_self s1
      obtain ⟨d2, hd2, hd2v, hd2dec, hd2if⟩ := pySub_self s2
      obtain ⟨d3, hd3, hd3v, hd3dec, hd3if⟩ := pySub_self s3
      unfold Vector.eq Vector.sub
      rw [if_neg (show ¬(Vector.dimension ⟨[s1, s2, s3], none⟩
        ≠ Vector.dimension ⟨[s1, s2, s3], none⟩) by simp)]
      simp only [zipWithPy, hd1, hd2, hd3, PyRes.bind_ok]
      show Vector.is_zero ⟨[d1, d2, d3], none⟩ = .ok true
      have hmem : ∀ x ∈ [d1, d2, d3], x = d1 ∨ x = d2 ∨ x = d3 := by
        intro x hx
        simpa using hx
      apply is_zero_of_zero_coords
      · intro x hx
        rcases hmem x hx with rfl | rfl | rfl <;> assumption
      · rcases hkinds with ⟨hkv, hkw⟩ | ⟨hkv, hkw⟩
        · rw [hv] at hkv
          rw [hw] at hkw
          have hv1 : isDecB v1 = true := hkv v1 (by simp)
          have hv2 : isDecB v2 = true := hkv v2 (by simp)
          have hv0 : isDecB v0 = true := hkv v0 (by simp)
          have hw0 : isDecB w0 = true := hkw w0 (by simp)
          have hw1 : isDecB w1 = true := hkw w1 (by simp)
          have hw2 : isDecB w2 = true := hkw w2 (by simp)
          have hs1k : isDecB s1 = true := pySub_dec_left (pyMul_dec_left hv1 hp1) hs1
          have hs2k : isDecB s2 = true := pySub_dec_left (pyMul_dec_left hw0 hq1) hs2
          have hs3k : isDecB s3 = true := pySub_dec_left (pyMul_dec_left hv0 hr1) hs3
          refine Or.inl fun x hx => ?_
          rcases hmem x hx with rfl | rfl | rfl
          · exact hd1dec hs1k
          · exact hd2dec hs2k
          · exact hd3dec hs3k
        · rw [hv] at hkv
          rw [hw] at hkw
          have hv1 : isIFB v1 = true := hkv v1 (by simp)
          have hv2 : isIFB v2 = true := hkv v2 (by simp)
          have hv0 : isIFB v0 = true := hkv v0 (by simp)
          have hw0 : isIFB w0 = true := hkw w0 (by simp)
          have hw1 : isIFB w1 = true := hkw w1 (by simp)
          have hw2 : isIFB w2 = true := hkw w2 (by simp)
          have hs1k : isIFB s1 = true :=
            pySub_if (pyMul_if hv1 hw2 hp1) (pyMul_if hw1 hv2 hp2) hs1
          have hs2k : isIFB s2 = true :=
            pySub_if (pyMul_if hw0 hv2 hq1) (pyMul_if hv0 hw2 hq2) hs2
          have hs3k : isIFB s3 = true :=
            pySub_if (pyMul_if hv0 hw1 hr1) (pyMul_if hw0 hv1 hr2) hs3
          refine Or.inr fun x hx => ?_
          rcases hmem x hx with rfl | rfl | rfl
          · exact hd1if hs1k
          · exact hd2if hs2k
          · exact hd3if hs3k
      · intro hd
        exact absurd hd (by simp)

/-- Witness for `cross_anticommutative` at `[1,2,3] × [4,5,6]`. -/
theorem cross_anticommutative_witness :
    ∃ b, Vector.mul ⟨[.int 3, .int (-6), .int 3], none⟩ (.int (-1)) = .ok b
      ∧ Vector.eq ⟨[.int (-3), .int 6, .int (-3)], none⟩ b = .ok true :=
  (cross_anticommutative ⟨[.int 1, .int 2, .int 3], none⟩ ⟨[.int 4, .int 5, .int 6], none⟩).2
    ⟨[.int (-3), .int 6, .int (-3)], none⟩ ⟨[.int 3, .int (-6), .int 3], none⟩
    (Or.inr ⟨by decide, by decide⟩) (by decide) (by decide)

/-! ## Success lemmas for `is_parallel` -/

theorem mapPy_ok {f : PyNum → PyRes PyNum} {p : PyNum → Bool} :
    ∀ {cs : List PyNum}, (∀ c ∈ cs, ∃ r, f c = .ok r ∧ p r = true) →
      ∃ rs, mapPy f cs = .ok rs ∧ (∀ r ∈ rs, p r = true) ∧ rs.length = cs.length := by
  intro cs
  induction cs with
  | nil => exact fun _ => ⟨[], rfl, by simp, rfl⟩
  | cons c cs ih =>
    intro h
    obtain ⟨r, hr, hpr⟩ := h c (List.mem_cons_self _ _)
    obtain ⟨rs, hrs, hprs, hlen⟩ := ih fun x hx => h x (List.mem_cons_of_mem _ hx)
    refine ⟨r :: rs, ?_, ?_, by simp [hlen]⟩
    · simp only [mapPy, hr, PyRes.bind_ok, hrs]
    · intro x hx
      rcases List.mem_cons.mp hx with rfl | hx
      · exact hpr
      · exact hprs x hx

theorem zipPy_ok {f : PyNum → PyNum → PyRes PyNum} {p : PyNum → Bool}
    (hf : ∀ a b, p a = true → p b = true → ∃ c, f a b = .ok c ∧ p c = true) :
    ∀ {as bs : List PyNum}, as.length = bs.length →
      (∀ a ∈ as, p a = true) → (∀ b ∈ bs, p b = true) →
      ∃ cs, zipWithPy f as bs = .ok cs ∧ (∀ c ∈ cs, p c = true)
        ∧ cs.length = as.length := by
  intro as
  induction as with
  | nil =>
    intro bs hlen _ _
    cases bs with
    | nil => exact ⟨[], rfl, by simp, rfl⟩
    | cons b bs => simp at hlen
  | cons a as ih =>
    intro bs hlen has hbs
    cases bs with
    | nil => simp at hlen
    | cons b bs =>
      obtain ⟨c, hc, hpc⟩ := hf a b (has a (List.mem_cons_self _ _))
        (hbs b (List.mem_cons_self _ _))
      obtain ⟨cs, hcs, hpcs, hl⟩ := ih (by simpa using hlen)
        (fun x hx => has x (List.mem_cons_of_mem _ hx))
        (fun x hx => hbs x (List.mem_cons_of_mem _ hx))
      refine ⟨c :: cs, ?_, ?_, by simp [hl]⟩
      · simp only [zipWithPy, hc, PyRes.bind_ok, hcs]
      · intro x hx
        rcases List.mem_cons.mp hx with rfl | hx
        · exact hpc
        · exact hpcs x hx

/-- The kind a scalar must have for `Vector.__mul__` after conversion. -/
def scalarOk : Option PyTy → PyNum → Bool
  | some .dec, n => isDecB n
  | _, n => isIFB n

theorem mode_mul_ok {ty : Option PyTy} {a n : PyNum}
    (ha : modeKind ty a = true) (hn : scalarOk ty n = true) :
    ∃ c, pyMul a n = .ok c ∧ modeKind ty c = true := by
  cases ty with
  | some t =>
    cases t with
    | dec =>
      obtain ⟨x, rfl⟩ : ∃ x, a = .dec x := by cases a <;> simp_all [modeKind, isDecB]
      obtain ⟨y, rfl⟩ : ∃ y, n = .dec y := by cases n <;> simp_all [scalarOk, isDecB]
      exact ⟨_, rfl, rfl⟩
    | float =>
      obtain ⟨x, rfl⟩ : ∃ x, a = .float x := by cases a <;> simp_all [modeKind, isFloatB]
      cases n with
      | int z => exact ⟨_, rfl, rfl⟩
      | float q => exact ⟨_, rfl, rfl⟩
      | dec d => simp [scalarOk, isIFB] at hn
  | none =>
    cases a with
    | dec d => simp [modeKind, isDecB, isIFB] at ha
    | int z =>
      cases n with
      | int z2 => exact ⟨_, rfl, rfl⟩
      | float q2 => exact ⟨_, rfl, rfl⟩
      | dec d2 => simp [scalarOk, isIFB] at hn
    | float q =>
      cases n with
      | int z2 => exact ⟨_, rfl, rfl⟩
      | float q2 => exact ⟨_, rfl, rfl⟩
      | dec d2 => simp [scalarOk, isIFB] at hn

theorem mode_sub_ok {ty : Option PyTy} {a b : PyNum}
    (ha : modeKind ty a = true) (hb : modeKind ty b = true) :
    ∃ c, pySub a b = .ok c ∧ modeKind ty c = true := by
  cases ty with
  | some t =>
    cases t with
    | dec =>
      obtain ⟨x, rfl⟩ : ∃ x, a = .dec x := by cases a <;> simp_all [modeKind, isDecB]
      obtain ⟨y, rfl⟩ : ∃ y, b = .dec y := by cases b <;> simp_all [modeKind, isDecB]
      exact ⟨_, rfl, rfl⟩
    | float =>
      obtain ⟨x, rfl⟩ : ∃ x, a = .float x := by cases a <;> simp_all [modeKind, isFloatB]
      obtain ⟨y, rfl⟩ : ∃ y, b = .float y := by cases b <;> simp_all [modeKind, isFloatB]
      exact ⟨_, rfl, rfl⟩
  | none =>
    cases a with
    | dec d => simp [modeKind, isIFB] at ha
    | int z =>
      cases b with
      | int z2 => exact ⟨_, rfl, rfl⟩
      | float q2 => exact ⟨_, rfl, rfl⟩
      | dec d2 => simp [modeKind, isIFB] at hb
    | float q =>
      cases b with
      | int z2 => exact ⟨_, rfl, rfl⟩
      | float q2 => exact ⟨_, rfl, rfl⟩
      | dec d2 => simp [modeKind, isIFB] at hb

theorem pySq_val_nonneg_if {c : PyNum} (h : isIFB c = true) : 0 ≤ (pySq c).val := by
  cases c with
  | int z =>
    simp only [pySq, PyNum.val_int]
    exact_mod_cast mul_self_nonneg z
  | float q =>
    simp only [pySq, PyNum.val_float]
    exact mul_self_nonneg q
  | dec d => simp [isIFB] at h

/-- A well-formed vector that is nonempty when `Decimal`-tagged has a
successfully evaluating magnitude of the mode's scalar kind. -/
theorem magnitude_ok {v : Vector} (hwf : Wf v = true)
    (hne : v.type = some .dec → v.coordinates ≠ []) :
    ∃ m, v.magnitude = .ok m
      ∧ (v.type = some .dec → isDecB m = true)
      ∧ (v.type ≠ some .dec → isFloatB m = true) := by
  unfold Vector.magnitude
  by_cases hty : v.type = some .dec
  · have hdecs : ∀ c ∈ v.coordinates, isDecB c = true := mode_dec_of (Wf_mode hwf) hty
    cases hcs : v.coordinates with
    | nil => exact absurd hcs (hne hty)
    | cons c0 cs0 =>
      have hc0 : isDecB c0 = true := hdecs c0 (by rw [hcs]; exact List.mem_cons_self _ _)
      obtain ⟨y, rfl⟩ : ∃ y, c0 = .dec y := by cases c0 <;> simp_all [isDecB]
      obtain ⟨d, hd⟩ := @foldPy_dec (decPow2 y) (cs0.map pySq)
        (fun x hx => by
          obtain ⟨x0, hx0, rfl⟩ := List.mem_map.mp hx
          exact pySq_dec (hdecs x0 (by rw [hcs]; exact List.mem_cons_of_mem _ hx0)))
      have hy : pySq (PyNum.dec y) = PyNum.dec (decPow2 y) := rfl
      simp only [List.map_cons, sumPy, hy, hd, PyRes.bind_ok, hty, if_pos rfl]
      exact ⟨_, rfl, fun _ => rfl, fun hcon => absurd rfl hcon⟩
  · have hif : ∀ c ∈ v.coordinates, isIFB c = true := by
      rcases mode_homog (Wf_mode hwf) with hdecs | hif
      · intro c hc
        exfalso
        apply hty
        have hmode := Wf_mode hwf c hc
        have hd := hdecs c hc
        cases hty2 : v.type with
        | none =>
          rw [hty2] at hmode
          cases c <;> simp_all [modeKind, isDecB, isIFB]
        | some t =>
          cases t with
          | dec => rfl
          | float =>
            rw [hty2] at hmode
            cases c <;> simp_all [modeKind, isDecB, isFloatB]
      · exact hif
    cases hcs : v.coordinates with
    | nil =>
      simp only [List.map_nil, sumPy, PyRes.bind_ok, if_neg hty]
      unfold mathSqrt
      rw [if_neg (by rw [PyNum.val_int]; norm_num)]
      exact ⟨_, rfl, fun hcon => absurd hcon hty, fun _ => rfl⟩
    | cons c0 cs0 =>
      have hifm : ∀ x ∈ (c0 :: cs0), isIFB x = true := by rw [← hcs]; exact hif
      obtain ⟨s, hs, hsk, hsv⟩ := @foldPy_if (pySq c0) (cs0.map pySq)
        (pySq_if (hifm c0 (List.mem_cons_self _ _)))
        (fun x hx => by
          obtain ⟨x0, hx0, rfl⟩ := List.mem_map.mp hx
          exact pySq_if (hifm x0 (List.mem_cons_of_mem _ hx0)))
      have hnn : 0 ≤ s.val := by
        rw [hsv]
        have h1 : 0 ≤ (pySq c0).val := pySq_val_nonneg_if (hifm c0 (List.mem_cons_self _ _))
        have h2 : 0 ≤ ((cs0.map pySq).map PyNum.val).sum := by
          apply List.sum_nonneg
          intro x hx
          obtain ⟨x1, hx1, rfl⟩ := List.mem_map.mp hx
          obtain ⟨x0, hx0, rfl⟩ := List.mem_map.mp hx1
          exact pySq_val_nonneg_if (hifm x0 (List.mem_cons_of_mem _ hx0))
        positivity
      simp only [List.map_cons, sumPy, hs, PyRes.bind_ok, if_neg hty]
      unfold mathSqrt
      rw [if_neg (not_lt.mpr hnn)]
      exact ⟨_, rfl, fun hcon => absurd hcon hty, fun _ => rfl⟩

theorem is_zero_ok {v : Vector} (hwf : Wf v = true)
    (hne : v.type = some .dec → v.coordinates ≠ []) :
    ∃ m, v.magnitude = .ok m ∧ v.is_zero = .ok (decide (m.val < TOLERANCE))
      ∧ (v.type = some .dec → isDecB m = true)
      ∧ (v.type ≠ some .dec → isFloatB m = true) := by
  obtain ⟨m, hm, h1, h2⟩ := magnitude_ok hwf hne
  refine ⟨m, hm, ?_, h1, h2⟩
  unfold Vector.is_zero
  rw [hm]
  rfl

theorem float_imp_if {x : PyNum} (h : isFloatB x = true) : isIFB x = true := by
  cases x <;> simp_all [isFloatB, isIFB]

theorem pyDiv_one_dec {m n : PyNum} (hm : isDecB m = true)
    (h : pyDiv (.int 1) m = .ok n) : isDecB n = true := by
  obtain ⟨d, rfl⟩ : ∃ d, m = .dec d := by cases m <;> simp_all [isDecB]
  simp only [pyDiv] at h
  cases hdd : decDiv ⟨1, 0⟩ d with
  | none => rw [hdd] at h; simp at h
  | some d2 =>
    rw [hdd] at h
    injection h with h
    subst h
    rfl

theorem pyDiv_one_float {m n : PyNum} (hm : isFloatB m = true)
    (h : pyDiv (.int 1) m = .ok n) : isFloatB n = true := by
  obtain ⟨q, rfl⟩ : ∃ q, m = .float q := by cases m <;> simp_all [isFloatB]
  simp only [pyDiv] at h
  by_cases hq : q = 0
  · rw [if_pos hq] at h; simp at h
  · rw [if_neg hq] at h
    injection h with h
    subst h
    rfl

/-- Scalar multiplication of a well-formed vector by a mode-compatible scalar
succeeds and preserves the tag, well-formedness and dimension. -/
theorem mul_ok {v : Vector} {n : PyNum} (hwf : Wf v = true)
    (hn1 : v.type = some .dec → isDecB n = true ∨ ∃ z, n = .int z)
    (hn2 : v.type ≠ some .dec → isIFB n = true) :
    ∃ r, v.mul n = .ok r ∧ r.type = v.type ∧ Wf r = true
      ∧ r.dimension = v.dimension := by
  unfold Vector.mul
  have hconv : ∃ n2, convertScalar v n = .ok n2 ∧ scalarOk v.type n2 = true := by
    unfold convertScalar
    by_cases hty : v.type = some .dec
    · rw [if_pos hty]
      rcases hn1 hty with hdec | ⟨z, rfl⟩
      · obtain ⟨d, rfl⟩ : ∃ d, n = .dec d := by cases n <;> simp_all [isDecB]
        exact ⟨_, rfl, by rw [hty]; rfl⟩
      · exact ⟨_, rfl, by rw [hty]; rfl⟩
    · rw [if_neg hty]
      refine ⟨n, rfl, ?_⟩
      have hn := hn2 hty
      cases hty2 : v.type with
      | none => exact hn
      | some t =>
        cases t with
        | dec => exact absurd hty2 hty
        | float => exact hn
  obtain ⟨n2, hc, hsc⟩ := hconv
  rw [hc, PyRes.bind_ok]
  obtain ⟨rs, hrs, hkinds, hlen⟩ := mapPy_ok (p := modeKind v.type)
    (fun c hc2 => mode_mul_ok (Wf_mode hwf c hc2) hsc)
  rw [hrs, PyRes.bind_ok, make_mode_id hkinds]
  exact ⟨_, rfl, rfl, Wf_of_mode hkinds, hlen⟩

/-- `normalized` succeeds on a well-formed vector of nonzero magnitude and
preserves tag, well-formedness and dimension. -/
theorem normalized_ok {v : Vector} {m : PyNum} (hwf : Wf v = true)
    (hm : v.magnitude = .ok m) (hmv : m.val ≠ 0)
    (hkd : v.type = some .dec → isDecB m = true)
    (hkf : v.type ≠ some .dec → isFloatB m = true) :
    ∃ nv, v.normalized = .ok nv ∧ nv.type = v.type ∧ Wf nv = true
      ∧ nv.dimension = v.dimension := by
  obtain ⟨n, hn⟩ := pyDiv_one_ok hmv
  obtain ⟨r, hr, hrt, hrw, hrd⟩ := @mul_ok v n hwf
    (fun hty => Or.inl (pyDiv_one_dec (hkd hty) hn))
    (fun hty => float_imp_if (pyDiv_one_float (hkf hty) hn))
  refine ⟨r, ?_, hrt, hrw, hrd⟩
  unfold Vector.normalized
  rw [hm]
  simp only [PyRes.bind_ok]
  rw [hn]
  simp only [PyRes.bind_ok]
  rw [hr]

/-- `==` evaluates to a boolean on same-mode well-formed nonempty vectors of
equal dimension. -/
theorem eq_ok {x y : Vector} (hwf_x : Wf x = true) (hwf_y : Wf y = true)
    (hty : y.type = x.type) (hdim : x.dimension = y.dimension)
    (hpos : 0 < x.dimension) :
    ∃ b, Vector.eq x y = .ok b := by
  have hkx := Wf_mode hwf_x
  have hky : ∀ c ∈ y.coordinates, modeKind x.type c = true := by
    rw [← hty]; exact Wf_mode hwf_y
  obtain ⟨cs, hcs, hk, hlen⟩ :=
    zipPy_ok (fun a b ha hb => mode_sub_ok ha hb) hdim hkx hky
  unfold Vector.eq Vector.sub
  rw [if_neg (not_not_intro hdim)]
  have hmix : x.mix_types y = x.type := by
    unfold Vector.mix_types
    rw [hty, if_pos rfl]
  rw [hcs, PyRes.bind_ok, hmix, make_mode_id hk, PyRes.bind_ok]
  obtain ⟨m, _, hb, _, _⟩ := @is_zero_ok ⟨cs, x.type⟩ (Wf_of_mode hk)
    (fun _ hnil => by
      have hnil2 : cs = [] := hnil
      rw [hnil2] at hlen
      simp only [List.length_nil] at hlen
      unfold Vector.dimension at hpos
      omega)
  exact ⟨_, hb⟩

/-! ## Claim C9 -/

/-- Claim C9: on same-mode, well-formed, equal-dimension, nonempty vectors,
`is_parallel` evaluates without error and returns `True` exactly when either
vector is zero, or the normalized forms are equal, or the negation of the
first normalized form equals the second; in particular a vector with all-zero
coordinates is parallel to every such `w` (the zero test short-circuits
before `normalized` could raise). -/
theorem is_parallel_characterization (v w : Vector)
    (hwf_v : Wf v = true) (hwf_w : Wf w = true)
    (hty : w.type = v.type) (hdim : v.dimension = w.dimension)
    (hpos : 0 < v.dimension) :
    (∃ b, v.is_parallel w = .ok b
      ∧ (b = true ↔ (v.is_zero = .ok true ∨ w.is_zero = .ok true
          ∨ ∃ nv nw, v.normalized = .ok nv ∧ w.normalized = .ok nw
              ∧ (nv.eq nw = .ok true
                 ∨ ∃ nn, nv.mul (.int (-1)) = .ok nn ∧ nn.eq nw = .ok true))))
    ∧ ((∀ c ∈ v.coordinates, c.val = 0) → v.is_parallel w = .ok true) := by
  have hnev : v.coordinates ≠ [] := by
    intro hnil
    unfold Vector.dimension at hpos
    rw [hnil] at hpos
    simp at hpos
  have hnew : w.coordinates ≠ [] := by
    intro hnil
    unfold Vector.dimension at hdim
    rw [hnil] at hdim
    simp only [List.length_nil] at hdim
    unfold Vector.dimension at hpos
    omega
  obtain ⟨mv, hmv, hizv, hkdv, hkfv⟩ := is_zero_ok hwf_v fun _ => hnev
  obtain ⟨mw, hmw, hizw, hkdw, hkfw⟩ := is_zero_ok hwf_w fun _ => hnew
  have hmain : ∃ b, v.is_parallel w = .ok b
      ∧ (b = true ↔ (v.is_zero = .ok true ∨ w.is_zero = .ok true
          ∨ ∃ nv nw, v.normalized = .ok nv ∧ w.normalized = .ok nw
              ∧ (nv.eq nw = .ok true
                 ∨ ∃ nn, nv.mul (.int (-1)) = .ok nn ∧ nn.eq nw = .ok true))) := by
    by_cases hzv : mv.val < TOLERANCE
    · have hpar : v.is_parallel w = .ok true := by
        unfold Vector.is_parallel
        rw [hizv]
        simp only [PyRes.bind_ok]
        rw [decide_eq_true hzv, if_pos rfl]
      refine ⟨true, hpar, ?_⟩
      simp only [true_iff]
      exact Or.inl (by rw [hizv, decide_eq_true hzv])
    · by_cases hzw : mw.val < TOLERANCE
      · have hpar : v.is_parallel w = .ok true := by
          unfold Vector.is_parallel
          rw [hizv]
          simp only [PyRes.bind_ok]
          rw [decide_eq_false hzv, if_neg (by simp)]
          rw [hizw]
          simp only [PyRes.bind_ok]
          rw [decide_eq_true hzw, if_pos rfl]
        refine ⟨true, hpar, ?_⟩
        simp only [true_iff]
        exact Or.inr (Or.inl (by rw [hizw, decide_eq_true hzw]))
      · have hmvne : mv.val ≠ 0 := by
          intro h0
          rw [h0] at hzv
          exact hzv (by norm_num [TOLERANCE])
        have hmwne : mw.val ≠ 0 := by
          intro h0
          rw [h0] at hzw
          exact hzw (by norm_num [TOLERANCE])
        obtain ⟨nv, hnv, hnvt, hnvw, hnvd⟩ := normalized_ok hwf_v hmv hmvne hkdv hkfv
        obtain ⟨nw, hnw, hnwt, hnww, hnwd⟩ := normalized_ok hwf_w hmw hmwne hkdw hkfw
        obtain ⟨b1, hb1⟩ := @eq_ok nv nw hnvw hnww
          (by rw [hnwt, hnvt, hty]) (by rw [hnvd, hnwd]; exact hdim)
          (by rw [hnvd]; exact hpos)
        cases b1 with
        | true =>
          have hpar : v.is_parallel w = .ok true := by
            unfold Vector.is_parallel
            rw [hizv]
            simp only [PyRes.bind_ok]
            rw [decide_eq_false hzv, if_neg (by simp)]
            rw [hizw]
            simp only [PyRes.bind_ok]
            rw [decide_eq_false hzw, if_neg (by simp)]
            rw [hnv]
            simp only [PyRes.bind_ok]
            rw [hnw]
            simp only [PyRes.bind_ok]
            rw [hb1]
            simp only [PyRes.bind_ok]
            rw [if_pos trivial]
          refine ⟨true, hpar, ?_⟩
          simp only [true_iff]
          exact Or.inr (Or.inr ⟨nv, nw, hnv, hnw, Or.inl hb1⟩)
        | false =>
          obtain ⟨nn, hnn, hnnt, hnnw, hnnd⟩ := @mul_ok nv (PyNum.int (-1)) hnvw
            (fun _ => Or.inr ⟨-1, rfl⟩) (fun _ => rfl)
          obtain ⟨b2, hb2⟩ := @eq_ok nn nw hnnw hnww
            (by rw [hnwt, hnnt, hnvt, hty])
            (by rw [hnnd, hnvd, hnwd]; exact hdim)
            (by rw [hnnd, hnvd]; exact hpos)
          have hpar : v.is_parallel w = .ok b2 := by
            unfold Vector.is_parallel
            rw [hizv]
            simp only [PyRes.bind_ok]
            rw [decide_eq_false hzv, if_neg (by simp)]
            rw [hizw]
            simp only [PyRes.bind_ok]
            rw [decide_eq_false hzw, if_neg (by simp)]
            rw [hnv]
            simp only [PyRes.bind_ok]
            rw [hnw]
            simp only [PyRes.bind_ok]
            rw [hb1]
            simp only [PyRes.bind_ok]
            rw [if_neg (by simp)]
            rw [hnn]
            simp only [PyRes.bind_ok]
            exact hb2
          refine ⟨b2, hpar, ?_⟩
          constructor
          · intro hb2t
            subst hb2t
            exact Or.inr (Or.inr ⟨nv, nw, hnv, hnw, Or.inr ⟨nn, hnn, hb2⟩⟩)
          · rintro (hc | hc | ⟨nv2, nw2, hnv2, hnw2, hcase⟩)
            · rw [hizv, decide_eq_false hzv] at hc
              injection hc with hc
              exact absurd hc (by simp)
            · rw [hizw, decide_eq_false hzw] at hc
              injection hc with hc
              exact absurd hc (by simp)
            · rw [hnv] at hnv2
              injection hnv2 with hnv2
              rw [hnw] at hnw2
              injection hnw2 with hnw2
              subst hnv2
              subst hnw2
              rcases hcase with hcase | ⟨nn2, hnn2, hcase⟩
              · rw [hb1] at hcase
                injection hcase with hcase
                exact absurd hcase.symm (by simp)
              · rw [hnn] at hnn2
                injection hnn2 with hnn2
                subst hnn2
                exact (PyRes.ok.injEq _ _).mp (hb2.symm.trans hcase)
  refine ⟨hmain, ?_⟩
  intro hz
  have hizv0 : v.is_zero = .ok true :=
    is_zero_of_zero_coords hz (mode_homog (Wf_mode hwf_v))
      (fun hd => ⟨mode_dec_of (Wf_mode hwf_v) hd, hnev⟩)
  unfold Vector.is_parallel
  rw [hizv0]
  simp only [PyRes.bind_ok]
  rw [if_pos trivial]

/-- Witness for C9: the all-zero integer vector is reported parallel to
`Vector([5, 5])`, via the zero-vector convention of `is_parallel`. -/
theorem is_parallel_characterization_witness :
    Vector.is_parallel ⟨[.int 0, .int 0], none⟩ ⟨[.int 5, .int 5], none⟩ = .ok true :=
  (is_parallel_characterization ⟨[.int 0, .int 0], none⟩ ⟨[.int 5, .int 5], none⟩
    (by decide) (by decide) rfl rfl (by decide)).2 (by decide)

end JBLinear
